import Mathlib

/-!
Verification of the Remnawave Ansible module generator: shallow embedding of
the discovery engine (`discovery.py`), the naming utilities (`utils.py`,
`schema.py`) and the reconciliation layer of the generated collection
(modelled from the design document where its source is not part of the
generator package), together with proofs about the specified properties.
-/

/-! ## ASCII character helpers (Python `[A-Z]`, `[a-z]`, `[0-9]`, `str.lower`) -/

def isUpperA (c : Char) : Bool := 65 ≤ c.toNat && c.toNat ≤ 90

def isLowerA (c : Char) : Bool := 97 ≤ c.toNat && c.toNat ≤ 122

def isDigitA (c : Char) : Bool := 48 ≤ c.toNat && c.toNat ≤ 57

def isLowerDigitA (c : Char) : Bool := isLowerA c || isDigitA c

def isAlphaA (c : Char) : Bool := isUpperA c || isLowerA c

def isAlnumA (c : Char) : Bool := isAlphaA c || isDigitA c

/-- ASCII lowercasing of one character (model of Python `str.lower` per char). -/
def lowerA (c : Char) : Char := if isUpperA c then Char.ofNat (c.toNat + 32) else c

/-- ASCII uppercasing of one character (model of Python `str.upper` per char). -/
def upperA (c : Char) : Char := if isLowerA c then Char.ofNat (c.toNat - 32) else c

/-- Python `str.lower()` on a character list (ASCII fragment). -/
def pyLower (l : List Char) : List Char := l.map lowerA

/-- Python `str.upper()` on a character list (ASCII fragment). -/
def pyUpper (l : List Char) : List Char := l.map upperA

/-- Python `needle in haystack` substring test on character lists. -/
def containsSub (hay needle : List Char) : Bool :=
  needle.isPrefixOf hay ||
    match hay with
    | [] => false
    | _ :: rest => containsSub rest needle

/-! ## `utils.py`: naming normalizer

`to_snake_case` is
`re.sub("([a-z0-9])([A-Z])", r"\1_\2", re.sub("(.)([A-Z][a-z]+)", r"\1_\2", name)).lower()`.
Each `re.sub` pass is embedded as a left-to-right scan over the character
list replacing leftmost non-overlapping matches, exactly as the `re` engine
does. -/

/-- First pass of `to_snake_case`: `re.sub("(.)([A-Z][a-z]+)", r"\1_\2", name)`.
A match is any character followed by an uppercase letter followed by a
greedy nonempty lowercase run; the replacement re-emits the pieces with an
underscore between group 1 and group 2, and scanning resumes after the run. -/
def sub1 : List Char → List Char
  | c1 :: c2 :: c3 :: rest =>
    if isUpperA c2 && isLowerA c3 then
      c1 :: '_' :: c2 :: ((c3 :: rest).takeWhile isLowerA) ++ sub1 ((c3 :: rest).dropWhile isLowerA)
    else
      c1 :: sub1 (c2 :: c3 :: rest)
  | l => l
termination_by l => l.length
decreasing_by
  · simp only [List.length_cons]
    have h := (List.dropWhile_sublist (l := c3 :: rest) isLowerA).length_le
    simp only [List.length_cons] at h
    omega
  · simp only [List.length_cons]; omega

/-- Second pass of `to_snake_case`: `re.sub("([a-z0-9])([A-Z])", r"\1_\2", s1)`.
A match is a lowercase letter or digit followed by an uppercase letter;
scanning resumes after the uppercase letter. -/
def sub2 : List Char → List Char
  | c1 :: c2 :: rest =>
    if isLowerDigitA c1 && isUpperA c2 then
      c1 :: '_' :: c2 :: sub2 rest
    else
      c1 :: sub2 (c2 :: rest)
  | l => l
termination_by l => l.length
decreasing_by all_goals simp only [List.length_cons]; omega

/-- `utils.to_snake_case`: the two regex passes followed by `.lower()`. -/
def to_snake_case (s : String) : String := String.mk (pyLower (sub2 (sub1 s.data)))

/-- Python `name.split("_")` on a character list: components between
underscores; empty input yields one empty component, like `"".split("_")`. -/
def splitUS : List Char → List (List Char)
  | [] => [[]]
  | c :: rest =>
    if c = '_' then [] :: splitUS rest
    else
      match splitUS rest with
      | [] => [[c]]
      | p :: ps => (c :: p) :: ps

/-- Python `str.title()` (ASCII fragment): a letter following a cased
character is lowercased, a letter following an uncased character (or at the
start) is uppercased, all other characters pass through and reset the
cased-state. -/
def pyTitleAux : Bool → List Char → List Char
  | _, [] => []
  | prevCased, c :: rest =>
    if isAlphaA c then (if prevCased then lowerA c else upperA c) :: pyTitleAux true rest
    else c :: pyTitleAux false rest

def pyTitle (l : List Char) : List Char := pyTitleAux false l

/-- `utils.to_camel_case`: `components = name.split("_")`, then
`components[0] + "".join(x.title() for x in components[1:])`. -/
def to_camel_case (s : String) : String :=
  match splitUS s.data with
  | [] => ""
  | c0 :: cs => String.mk (c0 ++ (cs.map pyTitle).flatten)

/-- The `type_mapping` dictionary of `utils.map_openapi_type`. -/
def type_mapping : List (String × String) :=
  [("string", "str"), ("integer", "int"), ("number", "float"),
   ("boolean", "bool"), ("array", "list"), ("object", "dict")]

/-- `utils.map_openapi_type`: `type_mapping.get(openapi_type, "str")`.
The `openapi_format` parameter is accepted (it is in the Python signature)
and unused, exactly as in the source. -/
def map_openapi_type (openapi_type : String) (_openapi_format : Option String) : String :=
  ((type_mapping.lookup openapi_type).getD "str")

/-! ## `discovery.py`: operation classifier and resource discovery

Operation objects are duck-typed dictionary fragments in the source; they
are embedded as the typed record the design document prescribes
(`{operationId, tags, requestBody $ref, responses $refs}`), with absent
keys as `none`. -/

/-- Python `value.split(sep)` for a one-character separator on a character
list: `"".split(sep)` is `[""]`, and separators at the ends produce empty
components. -/
def splitOnC (sep : Char) : List Char → List (List Char)
  | [] => [[]]
  | c :: rest =>
    if c = sep then [] :: splitOnC sep rest
    else
      match splitOnC sep rest with
      | [] => [[c]]
      | p :: ps => (c :: p) :: ps

/-- An OpenAPI operation object, restricted to the keys `discovery.py`
probes: `operationId`, `tags`,
`requestBody.content["application/json"].schema.$ref` (collapsed to `none`
when any level is missing) and, for each status key present in
`responses`, the `content["application/json"].schema.$ref` of that
status (again `none` when missing). -/
structure Operation where
  operationId : Option String
  tags : List String
  requestBodyRef : Option String
  responses : List (String × Option String)
deriving Repr, DecidableEq

/-- `discovery.classify_operation`: classify an operation as
create/update/get_all/get_one/delete, or `none` for non-CRUD shapes. -/
def classify_operation (method path : String) (operation : Operation) : Option String :=
  let m := pyLower method.data
  let operation_id := pyLower (operation.operationId.getD "").data
  let has_path_param := path.data.contains '{'
  let path_segments := (splitOnC '/' path.data).filter (fun s => s ≠ [])
  if has_path_param ∧ ((path_segments.drop 2).filter (fun s => s.head? ≠ some '{')) ≠ [] then
    none
  else if ¬ has_path_param ∧ path_segments.length > 2 then
    none
  else
    let method_name :=
      if operation_id.contains '_' then (splitOnC '_' operation_id).getLastD []
      else operation_id
    if m = "post".data ∧ ¬ has_path_param then
      if containsSub method_name "create".data then some "create" else none
    else if m = "get".data then
      if has_path_param then
        if containsSub method_name "getone".data ∨ containsSub method_name "byuuid".data ∨
            containsSub method_name "byname".data then some "get_one"
        else none
      else
        if containsSub method_name "getall".data then some "get_all"
        else if "get".data.isPrefixOf method_name ∧
            ¬ (containsSub method_name "tags".data ∨ containsSub method_name "inbound".data ∨
               containsSub method_name "stats".data ∨ containsSub method_name "settings".data) then
          some "get_all"
        else none
    else if m = "patch".data ∧ ¬ has_path_param then
      if containsSub method_name "update".data then some "update" else none
    else if m = "delete".data ∧ has_path_param then
      if containsSub method_name "delete".data then some "delete" else none
    else none

/-- `discovery.extract_dto_from_ref`: DTO name from a
`#/components/schemas/<Name>` reference (`ref.split("/")[-1]`); falsy or
non-conforming references yield `none`. -/
def extract_dto_from_ref (ref : Option String) : Option String :=
  match ref with
  | none => none
  | some r =>
    if r = "" then none
    else if "#/components/schemas/".data.isPrefixOf r.data then
      some (String.mk ((splitOnC '/' r.data).getLastD []))
    else none

def isWordC (c : Char) : Bool := isAlnumA c || c = '_'

/-- Scan for the leftmost `\x7b(\w+)\x7d` match, as
`re.search(r"\{(\w+)\}", path)` does in `discovery.detect_id_param`. -/
def detectIdScan : List Char → Option String
  | [] => none
  | '{' :: rest =>
    if rest.takeWhile isWordC ≠ [] ∧ (rest.dropWhile isWordC).head? = some '}' then
      some (String.mk (rest.takeWhile isWordC))
    else detectIdScan rest
  | _ :: rest => detectIdScan rest

/-- `discovery.detect_id_param`. -/
def detect_id_param (path : String) : Option String := detectIdScan path.data

/-- An OpenAPI schema object, restricted to the keys `discovery.py` and
`schema.py` probe on create/response DTO schemas: `type`, `properties`
(an ordered mapping of names to sub-schemas), `required`, and the
presence of the `minLength` / `maxLength` / `pattern` constraint keys. -/
inductive SchemaO where
  | node : Option String → List (String × SchemaO) → List String → Bool → Bool → Bool → SchemaO

def SchemaO.stype : SchemaO → Option String
  | .node t _ _ _ _ _ => t

def SchemaO.properties : SchemaO → List (String × SchemaO)
  | .node _ p _ _ _ _ => p

def SchemaO.required : SchemaO → List String
  | .node _ _ r _ _ _ => r

def SchemaO.hasMinLength : SchemaO → Bool
  | .node _ _ _ a _ _ => a

def SchemaO.hasMaxLength : SchemaO → Bool
  | .node _ _ _ _ b _ => b

def SchemaO.hasPattern : SchemaO → Bool
  | .node _ _ _ _ _ c => c

/-- The loop of `discovery.detect_lookup_field`: the first required
constrained string property, in property order. -/
def firstConstrained : List (String × SchemaO) → List String → Option String
  | [], _ => none
  | (n, p) :: rest, req =>
    if n ∈ req ∧ p.stype = some "string" ∧
        (p.hasMinLength || p.hasMaxLength || p.hasPattern) then some n
    else firstConstrained rest req

/-- `discovery.detect_lookup_field`: prefer a required string property
named `name`; otherwise the first required string property with a
`minLength`/`maxLength`/`pattern` constraint. -/
def detect_lookup_field (create_schema : SchemaO) : Option String :=
  let properties := create_schema.properties
  let required_fields := create_schema.required
  let nameHit :=
    match properties.lookup "name" with
    | some p => decide ("name" ∈ required_fields) && (p.stype = some "string" : Bool)
    | none => false
  if nameHit then some "name"
  else firstConstrained properties required_fields

/-- `discovery.compute_read_only_fields`: response-schema property names
(unwrapped from a `response` property when present) minus create-schema
property names, returned as a sorted list. -/
def compute_read_only_fields (create_schema response_schema : SchemaO) : List String :=
  let create_fields := (create_schema.properties.map Prod.fst).toFinset
  let response_props := response_schema.properties
  let response_fields :=
    match response_props.lookup "response" with
    | some inner => (inner.properties.map Prod.fst).toFinset
    | none => (response_props.map Prod.fst).toFinset
  (response_fields \ create_fields).sort (· ≤ ·)

/-- Python `s.replace(pat, repl)` on character lists: left-to-right
non-overlapping replacement of every occurrence (for nonempty `pat`). -/
def pyReplace (pat repl : List Char) : List Char → List Char
  | [] => []
  | c :: rest =>
    if pat ≠ [] ∧ pat.isPrefixOf (c :: rest) then
      repl ++ pyReplace pat repl ((c :: rest).drop pat.length)
    else c :: pyReplace pat repl rest
termination_by l => l.length
decreasing_by
  · rename_i h
    simp only [List.length_cons, List.length_drop]
    have : pat.length ≥ 1 := by
      cases pat with
      | nil => exact absurd rfl h.1
      | cons a t => simp
    omega
  · simp only [List.length_cons]; omega

def isPySpace (c : Char) : Bool :=
  c = ' ' || c = '\t' || c = '\n' || c = '\r' || c = Char.ofNat 11 || c = Char.ofNat 12

/-- Python `s.strip()` (whitespace from both ends). -/
def pyStrip (l : List Char) : List Char :=
  ((l.dropWhile isPySpace).reverse.dropWhile isPySpace).reverse

/-- `discovery.derive_resource_name_from_tag`:
`tag.replace(" Controller", "").strip()`, then drop a final `s` when the
name ends in `s` but not in `ss`. -/
def derive_resource_name_from_tag (tag : String) : String :=
  let name := pyStrip (pyReplace " Controller".data [] tag.data)
  let name :=
    if name.getLast? = some 's' ∧ ¬ name.reverse.take 2 = ['s', 's'] then name.dropLast
    else name
  String.mk name

/-- `discovery.derive_module_name_from_resource`:
`to_snake_case(resource_name.replace(" ", ""))`. -/
def derive_module_name_from_resource (resource_name : String) : String :=
  to_snake_case (String.mk (pyReplace " ".data [] resource_name.data))

/-! ## `models.py` and the configuration contract -/

/-- `models.DiscoveredEndpoint`. -/
structure DiscoveredEndpoint where
  path : String
  method : String
  dto : Option String
  response_dto : Option String
deriving Repr, DecidableEq

/-- `models.DiscoveredResource` (the `fields` list, which discovery never
touches, is omitted). `endpoints` is the insertion-ordered dictionary
keyed by operation kind; `field_renames` is the attribute
`apply_overrides` may set, empty when never set. -/
structure DiscoveredResource where
  controller_tag : String
  resource_name : String
  module_name : String
  base_path : String
  id_param : String
  lookup_field : String
  description : Option String
  endpoints : List (String × DiscoveredEndpoint)
  read_only_fields : List String
  resolve_uuid_by_name : Bool
  field_renames : List (String × String)
deriving Repr, DecidableEq

/-- One record of `config["module_overrides"]`, per §4.4a: each key is
optional (`none` = key absent); `resolve_uuid_by_name` is the truthiness
of `module_override.get("resolve_uuid_by_name")`. -/
structure ModuleOverride where
  read_only_fields : Option (List String)
  lookup_field : Option String
  id_param : Option String
  description : Option String
  resolve_uuid_by_name : Bool
  field_renames : Option (List (String × String))
deriving Repr, DecidableEq

/-- The already-parsed configuration mapping consumed by
`discover_resources`: `discovery.include_controllers`,
`discovery.exclude_controllers`, `module_overrides` and the global
`read_only_fields` list (each defaulting to empty when absent). -/
structure GenConfig where
  include_controllers : List String
  exclude_controllers : List String
  module_overrides : List (String × ModuleOverride)
  read_only_fields : List String
deriving Repr, DecidableEq

def emptyOverride : ModuleOverride := ⟨none, none, none, none, false, none⟩

/-- `discovery.apply_overrides`: merge the global, discovered and
override-supplied read-only fields as a sorted set union, and apply the
per-module replacements. -/
def apply_overrides (resource : DiscoveredResource)
    (overrides : List (String × ModuleOverride))
    (global_read_only : List String) : DiscoveredResource :=
  let module_override := (overrides.lookup resource.module_name).getD emptyOverride
  let all_read_only := global_read_only.toFinset ∪ resource.read_only_fields.toFinset ∪
    (module_override.read_only_fields.getD []).toFinset
  { resource with
      read_only_fields := all_read_only.sort (· ≤ ·)
      lookup_field := module_override.lookup_field.getD resource.lookup_field
      id_param := module_override.id_param.getD resource.id_param
      description :=
        match module_override.description with
        | some d => some d
        | none => resource.description
      resolve_uuid_by_name := resource.resolve_uuid_by_name || module_override.resolve_uuid_by_name
      field_renames := module_override.field_renames.getD resource.field_renames }

/-! ## `discovery.group_operations_by_controller` and `discover_resources` -/

/-- A path item, restricted to the five HTTP methods the grouping loop
probes, in its probing order. -/
structure PathItem where
  get : Option Operation
  post : Option Operation
  put : Option Operation
  patch : Option Operation
  delete : Option Operation
deriving Repr, DecidableEq

/-- The OpenAPI document, restricted to the keys discovery probes:
`paths` and `components.schemas`, both insertion-ordered mappings. -/
structure OpenAPISpec where
  paths : List (String × PathItem)
  schemas : List (String × SchemaO)

/-- `schema.get_schema_by_name`:
`spec.get("components", {}).get("schemas", {}).get(schema_name)`. -/
def get_schema_by_name (spec : OpenAPISpec) (schema_name : String) : Option SchemaO :=
  spec.schemas.lookup schema_name

/-- The methods present on a path item, in the loop order
`["get", "post", "put", "patch", "delete"]`. -/
def methodOps (item : PathItem) : List (String × Operation) :=
  ([("get", item.get), ("post", item.post), ("put", item.put),
    ("patch", item.patch), ("delete", item.delete)]).filterMap
    (fun mo => mo.2.map (fun op => (mo.1, op)))

/-- `controllers[tag].append(entry)` with first-touch key creation:
Python dict insertion-order semantics. -/
def addToGroups (groups : List (String × List (String × String × Operation)))
    (tag : String) (entry : String × String × Operation) :
    List (String × List (String × String × Operation)) :=
  if groups.any (fun g => g.1 = tag) then
    groups.map (fun g => if g.1 = tag then (g.1, g.2 ++ [entry]) else g)
  else groups ++ [(tag, [entry])]

/-- `discovery.group_operations_by_controller`: tag → list of
`(path, METHOD, operation)`, method upper-cased. -/
def group_operations_by_controller (spec : OpenAPISpec) :
    List (String × List (String × String × Operation)) :=
  spec.paths.foldl
    (fun groups pp =>
      (methodOps pp.2).foldl
        (fun groups mo =>
          mo.2.tags.foldl
            (fun groups tag => addToGroups groups tag (pp.1, String.mk (pyUpper mo.1.data), mo.2))
            groups)
        groups)
    []

/-- `endpoints[op_type] = endpoint` with Python dict overwrite semantics
(existing key keeps its position). -/
def dictInsert (l : List (String × DiscoveredEndpoint)) (k : String)
    (v : DiscoveredEndpoint) : List (String × DiscoveredEndpoint) :=
  if l.any (fun kv => kv.1 = k) then l.map (fun kv => if kv.1 = k then (k, v) else kv)
  else l ++ [(k, v)]

/-- The response-DTO extraction of the discovery loop: prefer status
`"200"`, else `"201"`, breaking at the first status present even when it
carries no reference. -/
def responseDtoOf (operation : Operation) : Option String :=
  match operation.responses.lookup "200" with
  | some r => extract_dto_from_ref r
  | none =>
    match operation.responses.lookup "201" with
    | some r => extract_dto_from_ref r
    | none => none

/-- The per-tag endpoint classification loop of `discover_resources`:
accumulates the endpoint dictionary, `base_path` (from `create`) and
`id_param` (from a parameterised `get_one`/`delete`, last one wins). -/
def processOps (ops : List (String × String × Operation)) :
    List (String × DiscoveredEndpoint) × Option String × Option String :=
  ops.foldl
    (fun acc pmo =>
      match classify_operation pmo.2.1 pmo.1 pmo.2.2 with
      | none => acc
      | some op_type =>
        let dto := extract_dto_from_ref pmo.2.2.requestBodyRef
        let endpoints := dictInsert acc.1 op_type ⟨pmo.1, pmo.2.1, dto, responseDtoOf pmo.2.2⟩
        let base_path := if op_type = "create" then some pmo.1 else acc.2.1
        let id_param :=
          if (op_type = "get_one" ∨ op_type = "delete") ∧ pmo.1.data.contains '{' then
            detect_id_param pmo.1
          else acc.2.2
        (endpoints, base_path, id_param))
    ([], none, none)

/-- The body of `discover_resources` for one surviving controller tag:
`none` when the tag is skipped (missing create/get_all, falsy create DTO
name, or unresolvable create schema). -/
def buildResource (spec : OpenAPISpec) (config : GenConfig) (tag : String)
    (operations : List (String × String × Operation)) : Option DiscoveredResource :=
  let (endpoints, base_path, id_param) := processOps operations
  if ¬ ((endpoints.lookup "create").isSome ∧ (endpoints.lookup "get_all").isSome) then none
  else
    let resource_name := derive_resource_name_from_tag tag
    let module_name := derive_module_name_from_resource resource_name
    match endpoints.lookup "create" with
    | none => none
    | some createEp =>
      match createEp.dto with
      | none => none
      | some create_dto_name =>
        if create_dto_name = "" then none
        else
          match get_schema_by_name spec create_dto_name with
          | none => none
          | some create_schema =>
            let lookup_field :=
              match detect_lookup_field create_schema with
              | some f => if f = "" then "name" else f
              | none => "name"
            let resource_read_only :=
              match createEp.response_dto with
              | none => []
              | some response_dto_name =>
                match get_schema_by_name spec response_dto_name with
                | none => []
                | some response_schema => compute_read_only_fields create_schema response_schema
            let resource : DiscoveredResource :=
              { controller_tag := tag, resource_name := resource_name,
                module_name := module_name, base_path := base_path.getD "",
                id_param :=
                  match id_param with
                  | some p => if p = "" then "uuid" else p
                  | none => "uuid",
                lookup_field := lookup_field, description := none,
                endpoints := endpoints, read_only_fields := resource_read_only,
                resolve_uuid_by_name := false, field_renames := [] }
            some (apply_overrides resource config.module_overrides config.read_only_fields)

/-- `discovery.discover_resources`: group by controller tag, apply the
include/exclude filters, and build one resource per surviving tag that
has classified `create` and `get_all` endpoints and a resolvable create
schema. -/
def discover_resources (spec : OpenAPISpec) (config : GenConfig) : List DiscoveredResource :=
  (group_operations_by_controller spec).foldl
    (fun resources tagOps =>
      if config.include_controllers ≠ [] ∧ tagOps.1 ∉ config.include_controllers then resources
      else if tagOps.1 ∈ config.exclude_controllers then resources
      else
        match buildResource spec config tagOps.1 tagOps.2 with
        | none => resources
        | some r => resources ++ [r])
    []

/-! ## The reconciliation layer (`module_utils/remnawave.py`)

The implementation of `recursive_diff`, `_lists_equal` and
`RemnawaveClient` is part of the generated Ansible collection and is not
among the generator sources; only its unit tests are. The definitions in
this section are therefore modelled from the design document (§4.5, §4.6,
§7) and cross-checked against those unit tests.

JSON-like values exchanged with the API are embedded as `JValue`;
mappings are insertion-ordered association lists, mirroring Python dicts.
-/

/-- Modelled from the spec: a JSON-like Python value (scalars, `None`,
sequences, string-keyed mappings) as handled by the diff engine. -/
inductive JValue where
  | str (s : String)
  | num (n : Int)
  | bool (b : Bool)
  | null
  | arr (xs : List JValue)
  | obj (kvs : List (String × JValue))

mutual

def JValue.beq : JValue → JValue → Bool
  | .str a, .str b => a == b
  | .num a, .num b => a == b
  | .bool a, .bool b => a == b
  | .null, .null => true
  | .arr xs, .arr ys => beqL xs ys
  | .obj xs, .obj ys => beqO xs ys
  | _, _ => false

def beqL : List JValue → List JValue → Bool
  | [], [] => true
  | x :: xs, y :: ys => JValue.beq x y && beqL xs ys
  | _, _ => false

def beqO : List (String × JValue) → List (String × JValue) → Bool
  | [], [] => true
  | x :: xs, y :: ys => (x.1 == y.1) && JValue.beq x.2 y.2 && beqO xs ys
  | _, _ => false

end

mutual

theorem JValue.beq_sound : ∀ (a b : JValue), JValue.beq a b = true → a = b
  | .str a, .str b, h => by simp only [JValue.beq, beq_iff_eq] at h; rw [h]
  | .num a, .num b, h => by simp only [JValue.beq, beq_iff_eq] at h; rw [h]
  | .bool a, .bool b, h => by simp only [JValue.beq, beq_iff_eq] at h; rw [h]
  | .null, .null, _ => rfl
  | .arr xs, .arr ys, h => by
    simp only [JValue.beq] at h
    rw [beqL_sound xs ys h]
  | .obj xs, .obj ys, h => by
    simp only [JValue.beq] at h
    rw [beqO_sound xs ys h]
  | .str _, .num _, h => by simp [JValue.beq] at h
  | .str _, .bool _, h => by simp [JValue.beq] at h
  | .str _, .null, h => by simp [JValue.beq] at h
  | .str _, .arr _, h => by simp [JValue.beq] at h
  | .str _, .obj _, h => by simp [JValue.beq] at h
  | .num _, .str _, h => by simp [JValue.beq] at h
  | .num _, .bool _, h => by simp [JValue.beq] at h
  | .num _, .null, h => by simp [JValue.beq] at h
  | .num _, .arr _, h => by simp [JValue.beq] at h
  | .num _, .obj _, h => by simp [JValue.beq] at h
  | .bool _, .str _, h => by simp [JValue.beq] at h
  | .bool _, .num _, h => by simp [JValue.beq] at h
  | .bool _, .null, h => by simp [JValue.beq] at h
  | .bool _, .arr _, h => by simp [JValue.beq] at h
  | .bool _, .obj _, h => by simp [JValue.beq] at h
  | .null, .str _, h => by simp [JValue.beq] at h
  | .null, .num _, h => by simp [JValue.beq] at h
  | .null, .bool _, h => by simp [JValue.beq] at h
  | .null, .arr _, h => by simp [JValue.beq] at h
  | .null, .obj _, h => by simp [JValue.beq] at h
  | .arr _, .str _, h => by simp [JValue.beq] at h
  | .arr _, .num _, h => by simp [JValue.beq] at h
  | .arr _, .bool _, h => by simp [JValue.beq] at h
  | .arr _, .null, h => by simp [JValue.beq] at h
  | .arr _, .obj _, h => by simp [JValue.beq] at h
  | .obj _, .str _, h => by simp [JValue.beq] at h
  | .obj _, .num _, h => by simp [JValue.beq] at h
  | .obj _, .bool _, h => by simp [JValue.beq] at h
  | .obj _, .null, h => by simp [JValue.beq] at h
  | .obj _, .arr _, h => by simp [JValue.beq] at h

theorem beqL_sound : ∀ (xs ys : List JValue), beqL xs ys = true → xs = ys
  | [], [], _ => rfl
  | x :: xs, y :: ys, h => by
    simp only [beqL, Bool.and_eq_true] at h
    rw [JValue.beq_sound x y h.1, beqL_sound xs ys h.2]
  | [], _ :: _, h => by simp [beqL] at h
  | _ :: _, [], h => by simp [beqL] at h

theorem beqO_sound : ∀ (xs ys : List (String × JValue)), beqO xs ys = true → xs = ys
  | [], [], _ => rfl
  | x :: xs, y :: ys, h => by
    simp only [beqO, Bool.and_eq_true, beq_iff_eq] at h
    have h2 := JValue.beq_sound x.2 y.2 h.1.2
    have h3 := beqO_sound xs ys h.2
    have : x = y := Prod.ext h.1.1 h2
    rw [this, h3]
  | [], _ :: _, h => by simp [beqO] at h
  | _ :: _, [], h => by simp [beqO] at h

end

mutual

theorem JValue.beq_refl : ∀ (a : JValue), JValue.beq a a = true
  | .str a => by simp [JValue.beq]
  | .num a => by simp [JValue.beq]
  | .bool a => by simp [JValue.beq]
  | .null => rfl
  | .arr xs => by simp only [JValue.beq]; exact beqL_refl xs
  | .obj xs => by simp only [JValue.beq]; exact beqO_refl xs

theorem beqL_refl : ∀ (xs : List JValue), beqL xs xs = true
  | [] => rfl
  | x :: xs => by
    simp only [beqL, Bool.and_eq_true]
    exact ⟨JValue.beq_refl x, beqL_refl xs⟩

theorem beqO_refl : ∀ (xs : List (String × JValue)), beqO xs xs = true
  | [] => rfl
  | x :: xs => by
    simp only [beqO, Bool.and_eq_true, beq_iff_eq]
    exact ⟨⟨trivial, JValue.beq_refl x.2⟩, beqO_refl xs⟩

end

instance : DecidableEq JValue := fun a b =>
  decidable_of_iff (JValue.beq a b = true) ⟨JValue.beq_sound a b, fun h => h ▸ JValue.beq_refl a⟩

/-- Modelled from the spec: Python hashability of a JSON value — scalars
and `None` are hashable, sequences and mappings are not. -/
def pyHashable : JValue → Bool
  | .arr _ => false
  | .obj _ => false
  | _ => true

/-- Modelled from the spec: `_lists_equal`. Sequences of different length
are never equal; when every element of both sequences is hashable,
equality is order-independent multiset comparison (`collections.Counter`
semantics: every element of either list occurs equally often in both);
otherwise equality falls back to strict positional comparison. -/
def lists_equal (l1 l2 : List JValue) : Bool :=
  if l1.length ≠ l2.length then false
  else if (l1 ++ l2).all pyHashable then
    (l1 ++ l2).all (fun x => l1.count x == l2.count x)
  else l1 == l2

/-- Modelled from the spec: a diff node — a leaf `{desired, current}` or
a mapping of per-key sub-diffs; "no difference" is `none` at the
`Option Diff` level. -/
inductive Diff where
  | leaf (desired current : JValue)
  | node (kvs : List (String × Diff))

/-- Modelled from the spec: `current.get(key)` during mapping recursion —
`None` (here `JValue.null`) when the key is missing or the current value
is not a mapping. -/
def jGet (current : JValue) (k : String) : JValue :=
  match current with
  | .obj kvs => (kvs.lookup k).getD .null
  | _ => .null

mutual

/-- Modelled from the spec (§4.5): `recursive_diff(desired, current)` with
the read-only key set passed explicitly. Absent desired (`None`) yields
absence; mappings recurse per desired key, skipping read-only keys;
sequences compare via `lists_equal` (a non-sequence current is never
equal); scalars compare by equality. -/
def recursive_diff (ro : List String) : JValue → JValue → Option Diff
  | .null, _ => none
  | .obj kvs, current =>
    match diffFields ro kvs current with
    | [] => none
    | sub => some (.node sub)
  | .arr xs, current =>
    match current with
    | .arr ys => if lists_equal xs ys then none else some (.leaf (.arr xs) current)
    | _ => some (.leaf (.arr xs) current)
  | .str s, current => if current = .str s then none else some (.leaf (.str s) current)
  | .num n, current => if current = .num n then none else some (.leaf (.num n) current)
  | .bool b, current => if current = .bool b then none else some (.leaf (.bool b) current)

/-- Modelled from the spec: the per-key loop of `recursive_diff` on a
mapping, collecting non-absent sub-diffs in key order. -/
def diffFields (ro : List String) : List (String × JValue) → JValue → List (String × Diff)
  | [], _ => []
  | (k, v) :: rest, current =>
    if k ∈ ro then diffFields ro rest current
    else
      match recursive_diff ro v (jGet current k) with
      | none => diffFields ro rest current
      | some d => (k, d) :: diffFields ro rest current

end

/-- Modelled from the spec: the outcome of `RemnawaveClient._request` — a
JSON payload or a raised failure carrying a textual message. -/
inductive ReqResult where
  | ok (v : JValue)
  | fail (msg : String)

/-- Modelled from the spec: unwrap a `{"response": ...}` envelope,
returning the raw payload when there is none. -/
def unwrapResponse (v : JValue) : JValue :=
  match v with
  | .obj kvs =>
    match kvs.lookup "response" with
    | some inner => inner
    | none => v
  | _ => v

/-- Modelled from the spec (§4.6, §7): `RemnawaveClient.get_one` outcome
handling. A successful request yields the unwrapped resource; a failure
whose message contains `"404"` or `"not found"` yields absence (`none`);
any other failure is re-raised unchanged. -/
def get_one_result (r : ReqResult) : Except String (Option JValue) :=
  match r with
  | .ok v => .ok (some (unwrapResponse v))
  | .fail msg =>
    if containsSub msg.data "404".data || containsSub msg.data "not found".data then
      .ok none
    else .error msg

/-! ## Definitions supporting the claim statements and proofs -/

/-- The lowercased method name derived from the `operationId`: the part
after the last underscore, or the whole lowercased identifier (§4.2). -/
def methodNameOf (operation : Operation) : List Char :=
  let operation_id := pyLower (operation.operationId.getD "").data
  if operation_id.contains '_' then (splitOnC '_' operation_id).getLastD []
  else operation_id

/-- The claim's description of `derive_resource_name_from_tag` (second
definition following the claim's words, for comparison): strip
`" Controller"` only as a trailing suffix, then singularize. -/
def derive_resource_name_claim (tag : String) : String :=
  let name :=
    if " Controller".data.isSuffixOf tag.data then
      tag.data.take (tag.data.length - " Controller".data.length)
    else tag.data
  let name :=
    if name.getLast? = some 's' ∧ ¬ name.reverse.take 2 = ['s', 's'] then name.dropLast
    else name
  String.mk name

/-- Occurrence-splitting on a sub-list separator, mirroring Python
`s.split(pat)` for nonempty `pat` (so that removing every occurrence of
`pat` is flattening of the parts). -/
def splitSub (pat : List Char) : List Char → List (List Char)
  | [] => [[]]
  | c :: rest =>
    if pat ≠ [] ∧ (pat.isPrefixOf (c :: rest)) then
      [] :: splitSub pat ((c :: rest).drop pat.length)
    else
      match splitSub pat rest with
      | [] => [[c]]
      | p :: ps => (c :: p) :: ps
termination_by l => l.length
decreasing_by
  · rename_i h
    simp only [List.length_cons, List.length_drop]
    have : pat.length ≥ 1 := by
      cases pat with
      | nil => exact absurd rfl h.1
      | cons a t => simp
    omega
  · simp only [List.length_cons]; omega

/-- The claim's description of `to_camel_case` (second definition
following the claim's words): title-case only the first letter of each
subsequent component, leaving every other character unchanged. -/
def to_camel_case_claim (s : String) : String :=
  match splitUS s.data with
  | [] => ""
  | c0 :: cs =>
    String.mk (c0 ++ (cs.map (fun p =>
      match p with
      | [] => []
      | c :: rest => upperA c :: rest)).flatten)

/-- Python `str.title()` re-expressed positionally: a letter is
uppercased when the preceding character is absent or not a letter, and
lowercased when the preceding character is a letter; non-letters pass
through unchanged. -/
def titleSpecAux : Option Char → List Char → List Char
  | _, [] => []
  | prev, c :: rest =>
    (if isAlphaA c then
      (match prev with
       | some p => if isAlphaA p then lowerA c else upperA c
       | none => upperA c)
     else c) :: titleSpecAux (some c) rest

def titleSpec (l : List Char) : List Char := titleSpecAux none l

/-- The override-supplied read-only fields for a module name (empty when
there is no override record or no `read_only_fields` key). -/
def overrideReadOnly (config : GenConfig) (module_name : String) : List String :=
  (((config.module_overrides.lookup module_name).getD emptyOverride).read_only_fields).getD []

def demoCreateOp : Operation :=
  { operationId := some "NodesController_createNode", tags := ["Nodes Controller"],
    requestBodyRef := some "#/components/schemas/CreateNodeRequestDto",
    responses := [("201", some "#/components/schemas/CreateNodeResponseDto")] }

def demoGetAllOp : Operation :=
  { operationId := some "NodesController_getAllNodes", tags := ["Nodes Controller"],
    requestBodyRef := none,
    responses := [("200", some "#/components/schemas/GetAllNodesResponseDto")] }

def demoCreateSchema : SchemaO :=
  .node (some "object")
    [("name", .node (some "string") [] [] true false false),
     ("address", .node (some "string") [] [] false false false)]
    ["name", "address"] false false false

def demoRespSchema : SchemaO :=
  .node (some "object")
    [("response", .node none
        [("uuid", .node (some "string") [] [] false false false),
         ("name", .node (some "string") [] [] false false false),
         ("address", .node (some "string") [] [] false false false),
         ("createdAt", .node (some "string") [] [] false false false)] [] false false false)]
    [] false false false

def demoSpec : OpenAPISpec :=
  { paths :=
      [("/api/nodes",
        { get := some demoGetAllOp, post := some demoCreateOp,
          put := none, patch := none, delete := none })],
    schemas := [("CreateNodeRequestDto", demoCreateSchema),
                ("CreateNodeResponseDto", demoRespSchema)] }

def demoConfig : GenConfig :=
  { include_controllers := [], exclude_controllers := [],
    module_overrides :=
      [("node", { read_only_fields := some ["xrayVersion"], lookup_field := none,
                  id_param := none, description := none,
                  resolve_uuid_by_name := false, field_renames := none })],
    read_only_fields := ["uuid", "updatedAt"] }

def demoFallback : DiscoveredResource :=
  { controller_tag := "", resource_name := "", module_name := "", base_path := "",
    id_param := "", lookup_field := "", description := none, endpoints := [],
    read_only_fields := [], resolve_uuid_by_name := false, field_renames := [] }

def demoResource : DiscoveredResource :=
  (discover_resources demoSpec demoConfig).getD 0 demoFallback

/-- Does an underscore land before `c`, given the previous character `p`
and the following character `n`? -/
def boundaryB (p c : Char) (n : Option Char) : Bool :=
  isUpperA c && (isLowerDigitA p ||
    (match n with
     | some x => isLowerA x
     | none => false))

/-- The tail of the positional insertion pass: `p` is the previous
character of the original string. -/
def goIns (p : Char) : List Char → List Char
  | [] => []
  | c :: rest => (if boundaryB p c rest.head? then ['_', c] else [c]) ++ goIns c rest

/-- Positional underscore insertion over a whole string (no insertion
before the first character). -/
def insUS : List Char → List Char
  | [] => []
  | c :: rest => c :: goIns c rest

/-- The tail of the case normalization `camel ∘ snake` performs: keep
boundary characters (they are re-capitalized), lowercase the rest. -/
def gnorm (p : Char) : List Char → List Char
  | [] => []
  | c :: rest => (if boundaryB p c rest.head? then c else lowerA c) :: gnorm c rest

/-- The case normalization `to_camel_case ∘ to_snake_case` performs on an
alphanumeric string: every non-boundary uppercase letter is lowercased. -/
def normStr : List Char → List Char
  | [] => []
  | c :: rest => lowerA c :: gnorm c rest

/-- No digit immediately followed by a lowercase letter (adjacent pairs). -/
def noDigLow : List Char → Bool
  | c1 :: c2 :: rest => (!(isDigitA c1 && isLowerA c2)) && noDigLow (c2 :: rest)
  | _ => true

/-- A camelCase string for the round-trip property: ASCII letters and
digits only (covering camelCase, PascalCase and acronym runs). -/
def isCamelCase (s : String) : Bool := s.data.all isAlnumA

/-- The first underscore-separated component. -/
def sFst (l : List Char) : List Char := (splitUS l).headD []

/-- The later underscore-separated components. -/
def sRest (l : List Char) : List (List Char) := (splitUS l).tail

/-! ### Character-class arithmetic -/

/-! ## The claims and their proofs -/

/-- C10: `map_openapi_type` depends only on its `openapi_type` argument:
the format never influences the output, which follows the fixed table
with `"str"` for unknown types. -/
theorem map_openapi_type_ignores_format (t : String) (f1 f2 : Option String) :
    map_openapi_type t f1 = map_openapi_type t f2 ∧
    map_openapi_type "string" f1 = "str" ∧
    map_openapi_type "integer" f1 = "int" ∧
    map_openapi_type "number" f1 = "float" ∧
    map_openapi_type "boolean" f1 = "bool" ∧
    map_openapi_type "array" f1 = "list" ∧
    map_openapi_type "object" f1 = "dict" ∧
    (t ∉ type_mapping.map Prod.fst → map_openapi_type t f1 = "str") := by
  refine ⟨rfl, rfl, rfl, rfl, rfl, rfl, rfl, ?_⟩
  intro h
  simp only [type_mapping, List.map_cons, List.map_nil, List.mem_cons,
    List.not_mem_nil, or_false, not_or] at h
  obtain ⟨h1, h2, h3, h4, h5, h6⟩ := h
  have e1 : (t == "string") = false := beq_eq_false_iff_ne.mpr h1
  have e2 : (t == "integer") = false := beq_eq_false_iff_ne.mpr h2
  have e3 : (t == "number") = false := beq_eq_false_iff_ne.mpr h3
  have e4 : (t == "boolean") = false := beq_eq_false_iff_ne.mpr h4
  have e5 : (t == "array") = false := beq_eq_false_iff_ne.mpr h5
  have e6 : (t == "object") = false := beq_eq_false_iff_ne.mpr h6
  simp [map_openapi_type, type_mapping, List.lookup, e1, e2, e3, e4, e5, e6]

theorem map_openapi_type_ignores_format_witness :
    map_openapi_type "uuid" (some "date-time") = "str" :=
  (map_openapi_type_ignores_format "uuid" (some "date-time") none).2.2.2.2.2.2.2 (by decide)

/-! ## C6 -/

/-- C6: `get_one` yields absence whenever the failure message contains
`"404"` or `"not found"`, and re-raises any other failure unchanged. -/
theorem get_one_absent_or_reraise (msg : String) :
    ((containsSub msg.data "404".data = true ∨ containsSub msg.data "not found".data = true) →
      get_one_result (.fail msg) = .ok none) ∧
    (containsSub msg.data "404".data = false → containsSub msg.data "not found".data = false →
      get_one_result (.fail msg) = .error msg) := by
  constructor
  · intro h
    simp only [get_one_result]
    rcases h with h | h <;> simp [h]
  · intro h1 h2
    simp [get_one_result, h1, h2]

theorem get_one_absent_or_reraise_witness :
    get_one_result (.fail "API request failed (500): Server error") =
      .error "API request failed (500): Server error" ∧
    containsSub "API request failed (500): Server error".data "500".data = true :=
  ⟨(get_one_absent_or_reraise "API request failed (500): Server error").2
      (by decide) (by decide),
    by decide⟩

/-! ## C4 -/

/-- C4: `compute_read_only_fields` returns exactly the response schema's
property names (unwrapped from a `response` property when present) minus
the create schema's property names, sorted alphabetically and without
duplicates. -/
theorem compute_read_only_fields_spec (cs rs : SchemaO) :
    (∀ f : String,
      f ∈ compute_read_only_fields cs rs ↔
        (f ∈ (match rs.properties.lookup "response" with
              | some inner => inner.properties
              | none => rs.properties).map Prod.fst ∧
         f ∉ cs.properties.map Prod.fst)) ∧
    (compute_read_only_fields cs rs).Sorted (· ≤ ·) ∧
    (compute_read_only_fields cs rs).Nodup := by
  refine ⟨?_, ?_, ?_⟩
  · intro f
    unfold compute_read_only_fields
    rcases h : rs.properties.lookup "response" with _ | inner <;>
      simp [h, Finset.mem_sort, Finset.mem_sdiff]
  · unfold compute_read_only_fields
    rcases h : rs.properties.lookup "response" with _ | inner <;> simp only [h] <;>
      exact Finset.sort_sorted _ _
  · unfold compute_read_only_fields
    rcases h : rs.properties.lookup "response" with _ | inner <;> simp only [h] <;>
      exact Finset.sort_nodup _ _

/-! ## C1 -/

/-- C1: any path with a non-parameter segment (one not starting with a
brace) beyond its first two non-empty segments is never classified. -/
theorem classify_rejects_extra_segments (method path : String) (operation : Operation)
    (h : ∃ s ∈ ((splitOnC '/' path.data).filter (fun s => s ≠ [])).drop 2,
        s.head? ≠ some '{') :
    classify_operation method path operation = none := by
  obtain ⟨s, hs, hne⟩ := h
  simp only [classify_operation]
  by_cases hp : path.data.contains '{'
  · rw [if_pos ⟨hp, List.ne_nil_of_mem (List.mem_filter.mpr ⟨hs, decide_eq_true hne⟩)⟩]
  · have hgt : ((splitOnC '/' path.data).filter (fun s => s ≠ [])).length > 2 := by
      by_contra hle
      exact (List.ne_nil_of_mem hs) (List.drop_eq_nil_of_le (by omega))
    rw [if_neg (fun hc => hp hc.1), if_pos ⟨by simpa using hp, hgt⟩]

theorem classify_rejects_extra_segments_witness :
    classify_operation "GET" "/api/nodes/{uuid}/restart"
      { operationId := some "NodesController_restartNode", tags := ["Nodes Controller"],
        requestBodyRef := none, responses := [] } = none :=
  classify_rejects_extra_segments "GET" "/api/nodes/{uuid}/restart" _ (by decide)

/-! ## C2 -/

/-- C2: a GET operation on a parameterless path that passes the
two-segment check is classified `get_all` exactly when its method name
contains `"getall"`, or starts with `"get"` and contains none of
`"tags"`, `"inbound"`, `"stats"`, `"settings"`. -/
theorem classify_get_all_iff (method path : String) (operation : Operation)
    (hm : pyLower method.data = "get".data)
    (hp : path.data.contains '{' = false)
    (hlen : ((splitOnC '/' path.data).filter (fun s => s ≠ [])).length ≤ 2) :
    (classify_operation method path operation = some "get_all" ↔
      (containsSub (methodNameOf operation) "getall".data = true ∨
        ("get".data.isPrefixOf (methodNameOf operation) ∧
          ¬ (containsSub (methodNameOf operation) "tags".data = true ∨
             containsSub (methodNameOf operation) "inbound".data = true ∨
             containsSub (methodNameOf operation) "stats".data = true ∨
             containsSub (methodNameOf operation) "settings".data = true)))) := by
  have hpf : ¬ (path.data.contains '{' = true) := by rw [hp]; simp
  simp only [classify_operation, methodNameOf, hm]
  rw [if_neg (fun hc => hpf hc.1)]
  rw [if_neg (fun hc => absurd hlen (not_le.mpr hc.2))]
  rw [if_pos trivial]
  rw [if_neg hpf]
  generalize (if ((pyLower (operation.operationId.getD "").data).contains '_' = true) then
      (splitOnC '_' (pyLower (operation.operationId.getD "").data)).getLastD []
    else pyLower (operation.operationId.getD "").data) = mn
  by_cases h1 : containsSub mn "getall".data = true
  · simp [h1]
  · rw [if_neg (by simp [h1])]
    simp only [h1, false_or]
    by_cases h2 : "get".data.isPrefixOf mn ∧
        ¬ (containsSub mn "tags".data = true ∨ containsSub mn "inbound".data = true ∨
           containsSub mn "stats".data = true ∨ containsSub mn "settings".data = true)
    · simp [h2, if_pos h2]
    · simp [h2, if_neg h2]

theorem classify_get_all_iff_witness :
    classify_operation "GET" "/api/nodes"
      { operationId := some "NodesController_getAllNodes", tags := ["Nodes Controller"],
        requestBodyRef := none, responses := [] } = some "get_all" :=
  (classify_get_all_iff "GET" "/api/nodes" _ (by decide) (by decide) (by decide)).mpr
    (by decide)

/-! ## C3 -/

theorem countAll_iff_perm (xs ys : List JValue) :
    ((xs ++ ys).all (fun x => xs.count x == ys.count x) = true) ↔ xs.Perm ys := by
  rw [List.all_eq_true]
  constructor
  · intro h
    rw [List.perm_iff_count]
    intro a
    by_cases ha : a ∈ xs ++ ys
    · simpa using h a ha
    · rw [List.count_eq_zero_of_not_mem (fun hx => ha (List.mem_append.mpr (Or.inl hx))),
        List.count_eq_zero_of_not_mem (fun hy => ha (List.mem_append.mpr (Or.inr hy)))]
  · intro h x _
    rw [List.perm_iff_count] at h
    simp [h x]

theorem lists_equal_hashable (l1 l2 : List JValue) (h : (l1 ++ l2).all pyHashable = true) :
    (lists_equal l1 l2 = true ↔ l1.Perm l2) := by
  unfold lists_equal
  split
  · rename_i hlen
    simp only [Bool.false_eq_true, false_iff]
    exact fun hp => hlen hp.length_eq
  · exact countAll_iff_perm l1 l2

theorem lists_equal_unhashable (l1 l2 : List JValue) (h : (l1 ++ l2).all pyHashable = false) :
    (lists_equal l1 l2 = true ↔ l1 = l2) := by
  unfold lists_equal
  split
  · rename_i hlen
    simp only [Bool.false_eq_true, false_iff]
    exact fun he => hlen (he ▸ rfl)
  · rw [if_neg (by simp [h])]
    exact beq_iff_eq

theorem lists_equal_length_ne (l1 l2 : List JValue) (h : l1.length ≠ l2.length) :
    lists_equal l1 l2 = false := by
  unfold lists_equal
  rw [if_pos h]

/-- C3: comparing two sequences, `recursive_diff` reports no difference
exactly on multiset equality when every element of both is hashable, and
exactly on positional equality otherwise; different lengths always yield
a difference. -/
theorem recursive_diff_list_equality (ro : List String) (xs ys : List JValue) :
    ((xs ++ ys).all pyHashable = true →
      (recursive_diff ro (.arr xs) (.arr ys) = none ↔
        (xs : Multiset JValue) = (ys : Multiset JValue))) ∧
    ((xs ++ ys).all pyHashable = false →
      (recursive_diff ro (.arr xs) (.arr ys) = none ↔ xs = ys)) ∧
    (xs.length ≠ ys.length → recursive_diff ro (.arr xs) (.arr ys) ≠ none) := by
  have hd : recursive_diff ro (.arr xs) (.arr ys) =
      if lists_equal xs ys then none else some (.leaf (.arr xs) (.arr ys)) := by
    simp [recursive_diff]
  refine ⟨?_, ?_, ?_⟩
  · intro hall
    rw [hd, Multiset.coe_eq_coe]
    by_cases hle : lists_equal xs ys = true
    · simp only [hle, if_pos]
      simp only [true_iff]
      exact ((lists_equal_hashable xs ys hall).mp hle)
    · rw [if_neg (by simpa using hle)]
      simp only [reduceCtorEq, false_iff]
      exact fun hp => hle ((lists_equal_hashable xs ys hall).mpr hp)
  · intro hnot
    rw [hd]
    by_cases hle : lists_equal xs ys = true
    · simp only [hle, if_pos]
      simp only [true_iff]
      exact ((lists_equal_unhashable xs ys hnot).mp hle)
    · rw [if_neg (by simpa using hle)]
      simp only [reduceCtorEq, false_iff]
      exact fun hp => hle ((lists_equal_unhashable xs ys hnot).mpr hp)
  · intro hlen
    rw [hd, lists_equal_length_ne xs ys hlen]
    simp

theorem recursive_diff_list_equality_witness :
    recursive_diff [] (.arr [.num 1, .num 2]) (.arr [.num 2, .num 1]) = none ∧
    recursive_diff []
        (.arr [.obj [("id", .num 1)], .obj [("id", .num 2)]])
        (.arr [.obj [("id", .num 2)], .obj [("id", .num 1)]]) ≠ none :=
  ⟨((recursive_diff_list_equality [] [.num 1, .num 2] [.num 2, .num 1]).1
      (by decide)).mpr (by decide),
    fun h =>
      by simpa using ((recursive_diff_list_equality []
        [.obj [("id", .num 1)], .obj [("id", .num 2)]]
        [.obj [("id", .num 2)], .obj [("id", .num 1)]]).2.1 (by decide)).mp h⟩

/-! ## C9 -/

/-- C9 counterexample: on a tag with a non-trailing `" Controller"`, the
code removes the mid-string occurrence while the claim would keep it. -/
theorem derive_resource_name_counterexample :
    derive_resource_name_from_tag "Remnawave Controller Tags" = "Remnawave Tag" ∧
    derive_resource_name_claim "Remnawave Controller Tags" = "Remnawave Controller Tag" ∧
    derive_resource_name_from_tag "Remnawave Controller Tags" ≠
      derive_resource_name_claim "Remnawave Controller Tags" := by
  refine ⟨?_, ?_, ?_⟩ <;>
    simp [derive_resource_name_from_tag, derive_resource_name_claim, pyReplace, pyStrip,
      isPySpace, String.ext_iff] <;> decide

theorem splitSub_ne_nil (pat : List Char) : ∀ l, splitSub pat l ≠ []
  | [] => by simp [splitSub]
  | c :: rest => by
    unfold splitSub
    split
    · simp
    · split
      · simp
      · simp

theorem pyReplace_empty_eq_flatten (pat : List Char) :
    ∀ l, pyReplace pat [] l = (splitSub pat l).flatten
  | [] => by simp [pyReplace, splitSub]
  | c :: rest => by
    unfold pyReplace splitSub
    by_cases h : pat ≠ [] ∧ pat.isPrefixOf (c :: rest)
    · rw [if_pos h, if_pos h]
      simp only [List.flatten_cons, List.nil_append]
      exact pyReplace_empty_eq_flatten pat ((c :: rest).drop pat.length)
    · rw [if_neg h, if_neg h]
      have hrec := pyReplace_empty_eq_flatten pat rest
      rcases hsp : splitSub pat rest with _ | ⟨p, ps⟩
      · exact absurd hsp (splitSub_ne_nil pat rest)
      · rw [hsp] at hrec
        simp only [List.flatten_cons]
        rw [hrec]
        simp
termination_by l => l.length
decreasing_by
  · rename_i h
    simp only [List.length_cons, List.length_drop]
    have : pat.length ≥ 1 := by
      cases pat with
      | nil => exact absurd rfl h.1
      | cons a t => simp
    omega
  · simp only [List.length_cons]; omega

/-- C9 amended: `resource_name` equals the tag with every occurrence of
`" Controller"` removed (the flattening of the tag split on that
substring), stripped of surrounding whitespace, and then with a final
`s` dropped when the result ends in `s` but not in `ss`. -/
theorem derive_resource_name_amended (tag : String) :
    derive_resource_name_from_tag tag =
      (let name := pyStrip ((splitSub " Controller".data tag.data).flatten)
       String.mk
        (if name.getLast? = some 's' ∧ ¬ name.reverse.take 2 = ['s', 's'] then name.dropLast
         else name)) := by
  simp only [derive_resource_name_from_tag]
  rw [pyReplace_empty_eq_flatten " Controller".data tag.data]

/-! ## C8 -/

/-- C8 counterexample: `str.title()` lowercases later letters of a
component (`"a_bC"` gives `"aBc"`), while the claim would leave them
unchanged (`"aBC"`). -/
theorem to_camel_case_counterexample :
    to_camel_case "a_bC" = "aBc" ∧
    to_camel_case_claim "a_bC" = "aBC" ∧
    to_camel_case "a_bC" ≠ to_camel_case_claim "a_bC" := by
  refine ⟨by decide, by decide, by decide⟩

theorem pyTitleAux_eq_titleSpecAux :
    ∀ (l : List Char) (prev : Option Char),
      pyTitleAux (match prev with | some p => isAlphaA p | none => false) l =
        titleSpecAux prev l := by
  intro l
  induction l with
  | nil => intro prev; rfl
  | cons c rest ih =>
    intro prev
    simp only [pyTitleAux, titleSpecAux]
    have hrec : pyTitleAux (isAlphaA c) rest = titleSpecAux (some c) rest := ih (some c)
    by_cases hc : isAlphaA c = true
    · rw [if_pos hc, if_pos hc]
      rw [hc] at hrec
      rw [hrec]
      cases prev with
      | none => rfl
      | some p => by_cases hpa : isAlphaA p = true <;> simp [hpa]
    · rw [if_neg hc, if_neg hc]
      rw [(Bool.not_eq_true _).mp hc] at hrec
      rw [hrec]

/-- C8 amended: `to_camel_case` splits on `_`, keeps the first component
unchanged, applies Python `str.title()` to each subsequent component —
uppercasing every letter that starts the component or follows a
non-letter, lowercasing letters that follow a letter, passing other
characters through — and concatenates. -/
theorem to_camel_case_amended (s : String) :
    to_camel_case s =
      (match splitUS s.data with
       | [] => ""
       | c0 :: cs => String.mk (c0 ++ (cs.map titleSpec).flatten)) := by
  unfold to_camel_case
  cases splitUS s.data with
  | nil => rfl
  | cons c0 cs =>
    simp only []
    have : cs.map pyTitle = cs.map titleSpec := by
      apply List.map_congr_left
      intro p _
      unfold pyTitle titleSpec
      exact pyTitleAux_eq_titleSpecAux p none
    rw [this]

/-! ## C5 -/

theorem apply_overrides_read_only (resource : DiscoveredResource)
    (overrides : List (String × ModuleOverride)) (g : List String) :
    (apply_overrides resource overrides g).read_only_fields =
      (g.toFinset ∪ resource.read_only_fields.toFinset ∪
        ((((overrides.lookup resource.module_name).getD emptyOverride).read_only_fields).getD
          []).toFinset).sort (· ≤ ·) ∧
    (apply_overrides resource overrides g).module_name = resource.module_name :=
  ⟨rfl, rfl⟩

theorem mem_discover_aux (spec : OpenAPISpec) (config : GenConfig) (r : DiscoveredResource) :
    ∀ (L : List (String × List (String × String × Operation)))
      (acc : List DiscoveredResource),
      r ∈ L.foldl (fun resources tagOps =>
        if config.include_controllers ≠ [] ∧ tagOps.1 ∉ config.include_controllers then resources
        else if tagOps.1 ∈ config.exclude_controllers then resources
        else
          match buildResource spec config tagOps.1 tagOps.2 with
          | none => resources
          | some r => resources ++ [r]) acc →
      r ∈ acc ∨ ∃ tag ops, buildResource spec config tag ops = some r := by
  intro L
  induction L with
  | nil => intro acc h; exact Or.inl h
  | cons x L ih =>
    intro acc h
    rw [List.foldl_cons] at h
    rcases ih _ h with hacc | hex
    · split at hacc
      · exact Or.inl hacc
      · split at hacc
        · exact Or.inl hacc
        · rcases hb : buildResource spec config x.1 x.2 with _ | b
          · rw [hb] at hacc
            exact Or.inl hacc
          · rw [hb] at hacc
            rcases List.mem_append.mp hacc with h1 | h2
            · exact Or.inl h1
            · exact Or.inr ⟨x.1, x.2, by rw [hb, List.mem_singleton.mp h2]⟩
    · exact Or.inr hex

theorem buildResource_shape (spec : OpenAPISpec) (config : GenConfig) (tag : String)
    (ops : List (String × String × Operation)) (r : DiscoveredResource)
    (h : buildResource spec config tag ops = some r) :
    ∃ base : DiscoveredResource,
      r = apply_overrides base config.module_overrides config.read_only_fields ∧
      (base.read_only_fields = [] ∨
        ∃ cs rsp : SchemaO, base.read_only_fields = compute_read_only_fields cs rsp) := by
  simp only [buildResource] at h
  repeat' split at h
  all_goals try exact Option.noConfusion h
  all_goals
    refine ⟨_, (Option.some.inj h).symm, ?_⟩
  all_goals first
    | exact Or.inl rfl
    | exact Or.inr ⟨_, _, rfl⟩

/-- C5: every resource produced by `discover_resources` carries exactly
the sorted union of the global configuration read-only fields, the
schema-diff-derived fields, and the override-supplied fields; every field
from any of the three sources is present (overrides only add, never
remove). -/
theorem discover_read_only_union (spec : OpenAPISpec) (config : GenConfig)
    (r : DiscoveredResource) (hr : r ∈ discover_resources spec config) :
    ∃ derived : List String,
      (derived = [] ∨
        ∃ cs rsp : SchemaO, derived = compute_read_only_fields cs rsp) ∧
      r.read_only_fields =
        (config.read_only_fields.toFinset ∪ derived.toFinset ∪
          (overrideReadOnly config r.module_name).toFinset).sort (· ≤ ·) ∧
      (∀ f, f ∈ config.read_only_fields ∨ f ∈ derived ∨
          f ∈ overrideReadOnly config r.module_name →
        f ∈ r.read_only_fields) := by
  rcases mem_discover_aux spec config r _ _ hr with hacc | ⟨tag, ops, hb⟩
  · exact absurd hacc (List.not_mem_nil r)
  · obtain ⟨base, hreq, hro⟩ := buildResource_shape spec config tag ops r hb
    refine ⟨base.read_only_fields, hro, ?_, ?_⟩
    · rw [hreq]
      exact (apply_overrides_read_only base config.module_overrides config.read_only_fields).1
    · intro f hf
      rw [hreq, (apply_overrides_read_only base _ _).1]
      rw [Finset.mem_sort]
      simp only [Finset.mem_union, List.mem_toFinset]
      rcases hf with h1 | h2 | h3
      · exact Or.inl (Or.inl h1)
      · exact Or.inl (Or.inr h2)
      · refine Or.inr ?_
        have : overrideReadOnly config r.module_name =
            ((((config.module_overrides.lookup base.module_name).getD
              emptyOverride).read_only_fields).getD []) := by
          rw [hreq]
          rfl
        rw [this] at h3
        exact h3

set_option maxHeartbeats 2000000 in

theorem discover_read_only_union_witness :
    ∃ derived : List String,
      (derived = [] ∨
        ∃ cs rsp : SchemaO, derived = compute_read_only_fields cs rsp) ∧
      demoResource.read_only_fields =
        (demoConfig.read_only_fields.toFinset ∪ derived.toFinset ∪
          (overrideReadOnly demoConfig demoResource.module_name).toFinset).sort (· ≤ ·) ∧
      (∀ f, f ∈ demoConfig.read_only_fields ∨ f ∈ derived ∨
          f ∈ overrideReadOnly demoConfig demoResource.module_name →
        f ∈ demoResource.read_only_fields) :=
  discover_read_only_union demoSpec demoConfig demoResource
    (by
      have h : discover_resources demoSpec demoConfig = [demoResource] := by
        simp +decide [discover_resources, demoResource, demoSpec, demoConfig,
          group_operations_by_controller, methodOps, addToGroups, buildResource, processOps,
          classify_operation, demoGetAllOp, demoCreateOp, demoCreateSchema, demoRespSchema,
          methodNameOf, splitOnC, containsSub, pyLower, pyUpper, lowerA, upperA,
          to_snake_case, sub1, sub2, derive_resource_name_from_tag,
          derive_module_name_from_resource, pyReplace, pyStrip, extract_dto_from_ref,
          get_schema_by_name, detect_lookup_field, firstConstrained, compute_read_only_fields,
          apply_overrides, emptyOverride, overrideReadOnly, dictInsert, responseDtoOf,
          detect_id_param, detectIdScan, demoFallback, List.lookup]
      rw [h]
      exact List.mem_singleton.mpr rfl)
/-! ## C7: round-trip stability of the naming normalizer

The two `re.sub` passes of `to_snake_case` are first fused into a
single-pass positional characterization (`insUS`): an underscore is
inserted before an uppercase letter that follows a lowercase letter or
digit, or that is itself followed by a lowercase letter. -/

theorem toNat_ofNat_small (n : Nat) (h : n < 55296) : (Char.ofNat n).toNat = n := by
  have hv : n.isValidChar := Or.inl h
  rw [Char.ofNat, dif_pos hv]
  rfl

theorem upperA_spec (c : Char) (h : isUpperA c = true) :
    (lowerA c).toNat = c.toNat + 32 := by
  simp only [isUpperA, Bool.and_eq_true, decide_eq_true_eq] at h
  simp only [lowerA, isUpperA, Bool.and_eq_true, decide_eq_true_eq, if_pos h]
  exact toNat_ofNat_small _ (by omega)

theorem isUpperA_toNat (c : Char) : isUpperA c = true ↔ (65 ≤ c.toNat ∧ c.toNat ≤ 90) := by
  simp [isUpperA]

theorem isLowerA_toNat (c : Char) : isLowerA c = true ↔ (97 ≤ c.toNat ∧ c.toNat ≤ 122) := by
  simp [isLowerA]

theorem isDigitA_toNat (c : Char) : isDigitA c = true ↔ (48 ≤ c.toNat ∧ c.toNat ≤ 57) := by
  simp [isDigitA]

theorem lower_not_upper {c : Char} (h : isLowerA c = true) : isUpperA c = false := by
  rw [isLowerA_toNat] at h
  rw [Bool.eq_false_iff]
  intro hc
  rw [isUpperA_toNat] at hc
  omega

theorem digit_not_upper {c : Char} (h : isDigitA c = true) : isUpperA c = false := by
  rw [isDigitA_toNat] at h
  rw [Bool.eq_false_iff]
  intro hc
  rw [isUpperA_toNat] at hc
  omega

theorem lowerdigit_not_upper {c : Char} (h : isLowerDigitA c = true) : isUpperA c = false := by
  rcases Bool.or_eq_true_iff.mp h with h | h
  · exact lower_not_upper h
  · exact digit_not_upper h

theorem upper_not_lowerdigit {c : Char} (h : isUpperA c = true) : isLowerDigitA c = false := by
  rw [Bool.eq_false_iff]
  intro hc
  rw [lowerdigit_not_upper hc] at h
  exact Bool.false_ne_true h

theorem lowerA_of_not_upper {c : Char} (h : isUpperA c = false) : lowerA c = c := by
  simp [lowerA, h]

theorem isLowerA_lowerA {c : Char} (h : isUpperA c = true) : isLowerA (lowerA c) = true := by
  rw [isLowerA_toNat, upperA_spec c h]
  rw [isUpperA_toNat] at h
  omega

theorem isUpperA_lowerA (c : Char) : isUpperA (lowerA c) = false := by
  by_cases h : isUpperA c = true
  · exact lower_not_upper (isLowerA_lowerA h)
  · rw [lowerA_of_not_upper (Bool.not_eq_true _ |>.mp h)]
    exact Bool.not_eq_true _ |>.mp h

theorem lowerA_idem (c : Char) : lowerA (lowerA c) = lowerA c :=
  lowerA_of_not_upper (isUpperA_lowerA c)

theorem upperA_lowerA {c : Char} (h : isUpperA c = true) : upperA (lowerA c) = c := by
  have h1 := upperA_spec c h
  have h2 := isLowerA_lowerA h
  simp only [upperA, if_pos h2]
  apply Char.ext
  have hval : ((lowerA c).toNat - 32) = c.toNat := by omega
  rw [hval]
  have : Char.ofNat c.toNat = c := Char.ofNat_toNat c
  exact congrArg Char.val this

theorem isAlphaA_lowerA_of_upper {c : Char} (h : isUpperA c = true) :
    isAlphaA (lowerA c) = true := by
  simp [isAlphaA, isLowerA_lowerA h]

theorem isAlnumA_lowerA {c : Char} (h : isAlnumA c = true) : isAlnumA (lowerA c) = true := by
  by_cases hu : isUpperA c = true
  · simp [isAlnumA, isAlphaA, isLowerA_lowerA hu]
  · rw [lowerA_of_not_upper (Bool.not_eq_true _ |>.mp hu)]
    exact h

theorem alnum_ne_us {c : Char} (h : isAlnumA c = true) : c ≠ '_' := by
  intro heq
  rw [heq] at h
  exact absurd h (by decide)

theorem lowerA_ne_us {c : Char} (h : isAlnumA c = true) : lowerA c ≠ '_' :=
  alnum_ne_us (isAlnumA_lowerA h)

theorem lowerA_of_lowerdigit {c : Char} (h : isLowerDigitA c = true) : lowerA c = c :=
  lowerA_of_not_upper (lowerdigit_not_upper h)

theorem lower_isAlphaA {c : Char} (h : isLowerA c = true) : isAlphaA c = true := by
  simp [isAlphaA, h]

theorem digit_not_alpha {c : Char} (h : isDigitA c = true) : isAlphaA c = false := by
  rw [isDigitA_toNat] at h
  rw [Bool.eq_false_iff]
  intro hc
  rcases Bool.or_eq_true_iff.mp hc with h2 | h2
  · rw [isUpperA_toNat] at h2; omega
  · rw [isLowerA_toNat] at h2; omega

theorem alnum_cases {c : Char} (h : isAlnumA c = true) :
    isUpperA c = true ∨ isLowerA c = true ∨ isDigitA c = true := by
  rcases Bool.or_eq_true_iff.mp h with h2 | h2
  · rcases Bool.or_eq_true_iff.mp h2 with h3 | h3
    · exact Or.inl h3
    · exact Or.inr (Or.inl h3)
  · exact Or.inr (Or.inr h2)

/-! ### Step lemmas for the two regex passes -/

theorem sub2_nil : sub2 [] = [] := by simp [sub2]

theorem sub2_single (a : Char) : sub2 [a] = [a] := by simp [sub2]

theorem sub2_step_no (a b : Char) (w : List Char)
    (h : ¬ (isLowerDigitA a && isUpperA b) = true) :
    sub2 (a :: b :: w) = a :: sub2 (b :: w) := by
  rw [sub2, if_neg h]

theorem sub2_step_yes (a b : Char) (w : List Char)
    (h : (isLowerDigitA a && isUpperA b) = true) :
    sub2 (a :: b :: w) = a :: '_' :: b :: sub2 w := by
  rw [sub2, if_pos h]

theorem sub1_nil : sub1 [] = [] := by simp [sub1]

theorem sub1_head (c : Char) (l : List Char) : sub1 (c :: l) = c :: (sub1 (c :: l)).tail := by
  match l with
  | [] => simp [sub1]
  | [x] => simp [sub1]
  | x :: y :: rest =>
    rw [sub1]
    split <;> simp

theorem getLastD_getD (a d : Char) (l : List Char) :
    (a :: l).getLast?.getD d = l.getLast?.getD a := by
  induction l generalizing a d with
  | nil => rfl
  | cons b t ih =>
    rw [List.getLast?_cons_cons]
    rw [ih b d, ih b a]

theorem goIns_cons (p c : Char) (rest : List Char) :
    goIns p (c :: rest) = (if boundaryB p c rest.head? then ['_', c] else [c]) ++ goIns c rest :=
  rfl

theorem gnorm_cons (p c : Char) (rest : List Char) :
    gnorm p (c :: rest) = (if boundaryB p c rest.head? then c else lowerA c) :: gnorm c rest :=
  rfl

/-- `sub2` passes over an all-lowercase run unchanged up to its last
character. -/
theorem sub2_run (r : Char) (run w : List Char) (hr : isLowerA r = true)
    (hrun : run.all isLowerA = true) :
    sub2 (r :: run ++ w) = (r :: run).dropLast ++ sub2 (run.getLastD r :: w) := by
  induction run generalizing r with
  | nil => simp
  | cons r2 run' ih =>
    simp only [List.all_cons, Bool.and_eq_true] at hrun
    have h2 : sub2 (r :: r2 :: (run' ++ w)) = r :: sub2 (r2 :: (run' ++ w)) := by
      apply sub2_step_no
      simp [lower_not_upper hrun.1]
    simp only [List.cons_append]
    rw [h2]
    have h3 := ih r2 hrun.1 hrun.2
    simp only [List.cons_append] at h3
    rw [h3]
    simp only [List.dropLast_cons₂, List.cons_append, List.getLastD_eq_getLast?]
    rw [getLastD_getD r2 r run']

/-- `goIns` passes over an all-lowercase run without inserting. -/
theorem goIns_run (p r : Char) (run m : List Char) (hr : isLowerA r = true)
    (hrun : run.all isLowerA = true) :
    goIns p (r :: run ++ m) = (r :: run) ++ goIns (run.getLastD r) m := by
  induction run generalizing p r with
  | nil =>
    simp only [List.nil_append, List.getLastD, List.singleton_append]
    rw [goIns_cons]
    have hb : boundaryB p r (m.head?) = false := by
      simp [boundaryB, lower_not_upper hr]
    rw [hb]
    simp
  | cons r2 run' ih =>
    simp only [List.all_cons, Bool.and_eq_true] at hrun
    simp only [List.cons_append]
    rw [goIns_cons]
    have hb : boundaryB p r ((r2 :: (run' ++ m)).head?) = false := by
      simp [boundaryB, lower_not_upper hr]
    rw [hb]
    have h3 := ih r r2 hrun.1 hrun.2
    simp only [List.cons_append] at h3
    rw [h3]
    simp only [List.getLastD_eq_getLast?, List.cons_append]
    rw [getLastD_getD r2 r run']
    simp

/-- Same for `gnorm`: an all-lowercase run is left unchanged. -/
theorem gnorm_run (p r : Char) (run m : List Char) (hr : isLowerA r = true)
    (hrun : run.all isLowerA = true) :
    gnorm p (r :: run ++ m) = (r :: run) ++ gnorm (run.getLastD r) m := by
  induction run generalizing p r with
  | nil =>
    simp only [List.nil_append, List.getLastD, List.singleton_append]
    rw [gnorm_cons]
    have hb : boundaryB p r (m.head?) = false := by
      simp [boundaryB, lower_not_upper hr]
    rw [hb]
    rw [lowerA_of_not_upper (lower_not_upper hr)]
    simp
  | cons r2 run' ih =>
    simp only [List.all_cons, Bool.and_eq_true] at hrun
    simp only [List.cons_append]
    rw [gnorm_cons]
    have hb : boundaryB p r ((r2 :: (run' ++ m)).head?) = false := by
      simp [boundaryB, lower_not_upper hr]
    rw [hb]
    rw [lowerA_of_not_upper (lower_not_upper hr)]
    have h3 := ih r r2 hrun.1 hrun.2
    simp only [List.cons_append] at h3
    rw [h3]
    simp only [List.getLastD_eq_getLast?, List.cons_append]
    rw [getLastD_getD r2 r run']
    simp

theorem dropLast_getLastD (r : Char) (run : List Char) :
    (r :: run).dropLast ++ [run.getLastD r] = r :: run := by
  simp only [List.getLastD_eq_getLast?]
  induction run generalizing r with
  | nil => rfl
  | cons r2 run' ih =>
    rw [List.dropLast_cons₂, getLastD_getD r2 r run', List.cons_append]
    rw [ih r2]

theorem head_dropWhile_not (p : Char → Bool) (l : List Char) (d : Char) (t : List Char)
    (h : l.dropWhile p = d :: t) : p d = false := by
  induction l with
  | nil => simp [List.dropWhile] at h
  | cons c rest ih =>
    rw [List.dropWhile_cons] at h
    split at h
    · exact ih h
    · rename_i hc
      rw [(List.cons.injEq _ _ _ _).mp h |>.1] at hc
      exact Bool.not_eq_true _ |>.mp hc

theorem getLastD_lower (d : Char) (l : List Char) (hd : isLowerA d = true)
    (hl : l.all isLowerA = true) : isLowerA (l.getLastD d) = true := by
  induction l generalizing d with
  | nil => exact hd
  | cons b t ih =>
    simp only [List.all_cons, Bool.and_eq_true] at hl
    rw [List.getLastD_eq_getLast?, getLastD_getD b d t, ← List.getLastD_eq_getLast?]
    exact ih b hl.1 hl.2

/-- The common middle step: after an inserted boundary, scanning a
lowercase run followed by the rest of the string agrees with the
positional insertion pass. -/
theorem middleLemma (p c3 : Char) (rest : List Char)
    (hc3 : isLowerA c3 = true)
    (hal : (c3 :: rest).all isAlnumA = true)
    (hP : ∀ l' : List Char, l'.length < (c3 :: rest).length → l'.all isAlnumA = true →
      sub2 (sub1 l') = insUS l')
    (hQ : ∀ (u : Char) (l' : List Char), (u :: l').length < (c3 :: rest).length →
      isUpperA u = true → (u :: l').all isAlnumA = true →
      sub2 ((sub1 (u :: l')).tail) = goIns u l') :
    sub2 ((c3 :: rest).takeWhile isLowerA ++ sub1 ((c3 :: rest).dropWhile isLowerA)) =
      goIns p (c3 :: rest) := by
  simp only [List.all_cons, Bool.and_eq_true] at hal
  have htw : (c3 :: rest).takeWhile isLowerA = c3 :: rest.takeWhile isLowerA := by
    simp [List.takeWhile_cons, hc3]
  have hdw : (c3 :: rest).dropWhile isLowerA = rest.dropWhile isLowerA := by
    simp [List.dropWhile_cons, hc3]
  rw [htw, hdw]
  have hrunall : (rest.takeWhile isLowerA).all isLowerA = true :=
    List.all_eq_true.mpr fun x hx => List.mem_takeWhile_imp hx
  have hlastc : isLowerA ((rest.takeWhile isLowerA).getLastD c3) = true :=
    getLastD_lower c3 _ hc3 hrunall
  have hlastc2 : isLowerA ((rest.takeWhile isLowerA).getLast?.getD c3) = true := by
    rw [← List.getLastD_eq_getLast?]
    exact hlastc
  have hsplit : rest.takeWhile isLowerA ++ rest.dropWhile isLowerA = rest :=
    List.takeWhile_append_dropWhile isLowerA rest
  have hrhs : goIns p (c3 :: rest) =
      (c3 :: rest.takeWhile isLowerA) ++
        goIns ((rest.takeWhile isLowerA).getLastD c3) (rest.dropWhile isLowerA) := by
    conv_lhs => rw [← hsplit]
    exact goIns_run p c3 _ _ hc3 hrunall
  rw [hrhs]
  rw [sub2_run c3 _ _ hc3 hrunall]
  have hkey : sub2 ((rest.takeWhile isLowerA).getLastD c3 ::
      sub1 (rest.dropWhile isLowerA)) =
      (rest.takeWhile isLowerA).getLastD c3 ::
        goIns ((rest.takeWhile isLowerA).getLastD c3) (rest.dropWhile isLowerA) := by
    rcases hdw2 : rest.dropWhile isLowerA with _ | ⟨d, rest3⟩
    · rw [sub1_nil, sub2_single, goIns]
    · have hdlen : (d :: rest3).length < (c3 :: rest).length := by
        have := (List.dropWhile_sublist (l := rest) isLowerA).length_le
        rw [hdw2] at this
        simp only [List.length_cons] at *
        omega
      have hdall : (d :: rest3).all isAlnumA = true := by
        rw [List.all_eq_true]
        intro x hx
        exact List.all_eq_true.mp hal.2 x
          ((List.dropWhile_sublist isLowerA).subset (hdw2 ▸ hx))
      have hdnl : isLowerA d = false := head_dropWhile_not isLowerA rest d rest3 hdw2
      have hdaln : isAlnumA d = true := by
        simp only [List.all_cons, Bool.and_eq_true] at hdall
        exact hdall.1
      rw [sub1_head d rest3]
      rcases alnum_cases hdaln with hdu | hdl | hdd
      · rw [sub2_step_yes _ _ _ (by simp [hdu, isLowerDigitA, hlastc, hlastc2])]
        rw [hQ d rest3 hdlen hdu hdall]
        rw [goIns_cons]
        have : boundaryB ((rest.takeWhile isLowerA).getLastD c3) d rest3.head? = true := by
          simp [boundaryB, hdu, isLowerDigitA, hlastc, hlastc2]
        rw [this]
        simp
      · rw [hdnl] at hdl
        exact absurd hdl (by simp)
      · rw [sub2_step_no _ _ _ (by simp [digit_not_upper hdd])]
        rw [← sub1_head d rest3, hP (d :: rest3) hdlen hdall]
        rw [insUS, goIns_cons]
        have : boundaryB ((rest.takeWhile isLowerA).getLastD c3) d rest3.head? = false := by
          simp [boundaryB, digit_not_upper hdd]
        rw [this]
        simp
  rw [hkey]
  rw [show (c3 :: rest.takeWhile isLowerA) ++
      goIns ((rest.takeWhile isLowerA).getLastD c3) (rest.dropWhile isLowerA) =
      ((c3 :: rest.takeWhile isLowerA).dropLast ++ [(rest.takeWhile isLowerA).getLastD c3]) ++
        goIns ((rest.takeWhile isLowerA).getLastD c3) (rest.dropWhile isLowerA) from by
    rw [dropLast_getLastD]]
  simp

theorem sub1_match (c1 c2 c3 : Char) (rest : List Char)
    (h : (isUpperA c2 && isLowerA c3) = true) :
    sub1 (c1 :: c2 :: c3 :: rest) =
      c1 :: '_' :: c2 ::
        ((c3 :: rest).takeWhile isLowerA ++ sub1 ((c3 :: rest).dropWhile isLowerA)) := by
  rw [sub1]
  rw [if_pos h]
  simp

theorem sub1_nomatch (c1 c2 c3 : Char) (rest : List Char)
    (h : ¬ (isUpperA c2 && isLowerA c3) = true) :
    sub1 (c1 :: c2 :: c3 :: rest) = c1 :: sub1 (c2 :: c3 :: rest) := by
  rw [sub1]
  rw [if_neg h]

/-- The two regex passes of `to_snake_case` fuse into the positional
insertion pass on alphanumeric strings (strong induction core). -/
theorem snakeFusionAux (n : Nat) :
    (∀ l : List Char, l.length ≤ n → l.all isAlnumA = true → sub2 (sub1 l) = insUS l) ∧
    (∀ (u : Char) (l : List Char), (u :: l).length ≤ n → isUpperA u = true →
      (u :: l).all isAlnumA = true → sub2 ((sub1 (u :: l)).tail) = goIns u l) := by
  induction n using Nat.strong_induction_on with
  | _ n ih =>
  have hPn : ∀ l : List Char, l.length < n → l.all isAlnumA = true →
      sub2 (sub1 l) = insUS l :=
    fun l hl hal => (ih l.length hl).1 l (le_refl _) hal
  have hQn : ∀ (u : Char) (l : List Char), (u :: l).length < n → isUpperA u = true →
      (u :: l).all isAlnumA = true → sub2 ((sub1 (u :: l)).tail) = goIns u l :=
    fun u l hl hu hal => (ih (u :: l).length hl).2 u l (le_refl _) hu hal
  constructor
  · intro l hlen hal
    match l, hal with
    | [], _ => simp [sub1_nil, sub2_nil, insUS]
    | [c], _ => simp [sub1, sub2, insUS, goIns]
    | [c1, c2], hal =>
      have hb : boundaryB c1 c2 none = (isLowerDigitA c1 && isUpperA c2) := by
        simp only [boundaryB]
        rw [Bool.or_false, Bool.and_comm]
      by_cases h : (isLowerDigitA c1 && isUpperA c2) = true
      · simp only [sub1, sub2, insUS, goIns]
        simp [hb, h]
      · simp only [sub1, sub2, insUS, goIns]
        simp [hb, h]
    | c1 :: c2 :: c3 :: rest, hal =>
      simp only [List.all_cons, Bool.and_eq_true] at hal
      simp only [List.length_cons] at hlen
      have halsub : (c3 :: rest).all isAlnumA = true := by
        simp [List.all_cons, hal.2.2.1, hal.2.2.2]
      have hlsub : (c3 :: rest).length < n := by
        simp only [List.length_cons]
        omega
      by_cases hm : (isUpperA c2 && isLowerA c3) = true
      · have hc3 : isLowerA c3 = true := (Bool.and_eq_true _ _ |>.mp hm).2
        have hc2 : isUpperA c2 = true := (Bool.and_eq_true _ _ |>.mp hm).1
        rw [sub1_match c1 c2 c3 rest hm]
        have s1 : sub2 (c1 :: '_' :: c2 ::
            ((c3 :: rest).takeWhile isLowerA ++ sub1 ((c3 :: rest).dropWhile isLowerA))) =
            c1 :: sub2 ('_' :: c2 ::
              ((c3 :: rest).takeWhile isLowerA ++ sub1 ((c3 :: rest).dropWhile isLowerA))) :=
          sub2_step_no _ _ _ (by simp [isUpperA])
        have s2 : sub2 ('_' :: c2 ::
            ((c3 :: rest).takeWhile isLowerA ++ sub1 ((c3 :: rest).dropWhile isLowerA))) =
            '_' :: sub2 (c2 ::
              ((c3 :: rest).takeWhile isLowerA ++ sub1 ((c3 :: rest).dropWhile isLowerA))) :=
          sub2_step_no _ _ _ (by simp [isLowerDigitA, isLowerA, isDigitA])
        have htw : (c3 :: rest).takeWhile isLowerA = c3 :: rest.takeWhile isLowerA := by
          simp [List.takeWhile_cons, hc3]
        have s3 : sub2 (c2 ::
            ((c3 :: rest).takeWhile isLowerA ++ sub1 ((c3 :: rest).dropWhile isLowerA))) =
            c2 :: sub2
              ((c3 :: rest).takeWhile isLowerA ++ sub1 ((c3 :: rest).dropWhile isLowerA)) := by
          rw [htw, List.cons_append]
          exact sub2_step_no _ _ _ (by simp [lower_not_upper hc3])
        rw [s1, s2, s3]
        have hmid := middleLemma c2 c3 rest hc3 halsub
          (fun l' hl' hal' => hPn l' (lt_trans hl' hlsub) hal')
          (fun u l' hl' hu hal' => hQn u l' (lt_trans hl' hlsub) hu hal')
        rw [hmid]
        rw [insUS, goIns_cons c1 c2 (c3 :: rest)]
        have hbb : boundaryB c1 c2 ((c3 :: rest).head?) = true := by
          simp [boundaryB, hc2, hc3]
        rw [hbb]
        simp
      · rw [sub1_nomatch c1 c2 c3 rest hm]
        rw [sub1_head c2 (c3 :: rest)]
        by_cases hs : (isLowerDigitA c1 && isUpperA c2) = true
        · have hc2 : isUpperA c2 = true := (Bool.and_eq_true _ _ |>.mp hs).2
          rw [sub2_step_yes _ _ _ hs]
          have hq := hQn c2 (c3 :: rest) (by simp only [List.length_cons]; omega) hc2
            (by simp [List.all_cons, hal.2.1, hal.2.2.1, hal.2.2.2])
          rw [hq]
          rw [insUS, goIns_cons c1 c2 (c3 :: rest)]
          have hbb : boundaryB c1 c2 ((c3 :: rest).head?) = true := by
            simp only [boundaryB, List.head?_cons]
            simp [hc2, (Bool.and_eq_true _ _ |>.mp hs).1]
          rw [hbb]
          simp
        · rw [sub2_step_no _ _ _ hs]
          rw [← sub1_head c2 (c3 :: rest)]
          have hp := hPn (c2 :: c3 :: rest) (by simp only [List.length_cons]; omega)
            (by simp [List.all_cons, hal.2.1, hal.2.2.1, hal.2.2.2])
          rw [hp]
          rw [insUS, insUS, goIns_cons c1 c2 (c3 :: rest)]
          have hbb : boundaryB c1 c2 ((c3 :: rest).head?) = false := by
            simp only [boundaryB, List.head?_cons]
            by_cases h2 : isUpperA c2 = true
            · have h3 : isLowerA c3 = false := by
                revert hm
                cases isLowerA c3 <;> simp [h2]
              have h4 : isLowerDigitA c1 = false := by
                revert hs
                cases isLowerDigitA c1 <;> simp [h2]
              simp [h2, h3, h4]
            · simp [Bool.not_eq_true _ |>.mp h2]
          rw [hbb]
          simp
  · intro u l hlen hu hal
    match l, hal with
    | [], _ => simp [sub1, sub2_nil, goIns]
    | [e], hal =>
      have hb : boundaryB u e none = false := by
        simp [boundaryB, upper_not_lowerdigit hu]
      have ht : (sub1 [u, e]).tail = [e] := by simp [sub1]
      rw [ht, sub2_single, goIns_cons u e []]
      simp only [List.head?_nil, hb]
      simp [goIns]
    | e :: f :: rest, hal =>
      simp only [List.all_cons, Bool.and_eq_true] at hal
      simp only [List.length_cons] at hlen
      have halsub : (f :: rest).all isAlnumA = true := by
        simp [List.all_cons, hal.2.2.1, hal.2.2.2]
      have hlsub : (f :: rest).length < n := by
        simp only [List.length_cons]
        omega
      by_cases hm2 : (isUpperA e && isLowerA f) = true
      · have hf : isLowerA f = true := (Bool.and_eq_true _ _ |>.mp hm2).2
        have he : isUpperA e = true := (Bool.and_eq_true _ _ |>.mp hm2).1
        rw [sub1_match u e f rest hm2]
        simp only [List.tail_cons]
        have s2 : sub2 ('_' :: e ::
            ((f :: rest).takeWhile isLowerA ++ sub1 ((f :: rest).dropWhile isLowerA))) =
            '_' :: sub2 (e ::
              ((f :: rest).takeWhile isLowerA ++ sub1 ((f :: rest).dropWhile isLowerA))) :=
          sub2_step_no _ _ _ (by simp [isLowerDigitA, isLowerA, isDigitA])
        have htw : (f :: rest).takeWhile isLowerA = f :: rest.takeWhile isLowerA := by
          simp [List.takeWhile_cons, hf]
        have s3 : sub2 (e ::
            ((f :: rest).takeWhile isLowerA ++ sub1 ((f :: rest).dropWhile isLowerA))) =
            e :: sub2
              ((f :: rest).takeWhile isLowerA ++ sub1 ((f :: rest).dropWhile isLowerA)) := by
          rw [htw, List.cons_append]
          exact sub2_step_no _ _ _ (by simp [lower_not_upper hf])
        rw [s2, s3]
        have hmid := middleLemma e f rest hf halsub
          (fun l' hl' hal' => hPn l' (lt_trans hl' hlsub) hal')
          (fun v l' hl' hv hal' => hQn v l' (lt_trans hl' hlsub) hv hal')
        rw [hmid]
        rw [goIns_cons u e (f :: rest)]
        have hbb : boundaryB u e ((f :: rest).head?) = true := by
          simp [boundaryB, he, hf]
        rw [hbb]
        simp
      · rw [sub1_nomatch u e f rest hm2]
        simp only [List.tail_cons]
        have hp := hPn (e :: f :: rest) (by simp only [List.length_cons]; omega)
          (by simp [List.all_cons, hal.2.1, hal.2.2.1, hal.2.2.2])
        rw [hp]
        rw [insUS, goIns_cons u e (f :: rest)]
        have hbb : boundaryB u e ((f :: rest).head?) = false := by
          simp only [boundaryB, List.head?_cons]
          simp only [upper_not_lowerdigit hu, Bool.false_or]
          exact Bool.not_eq_true _ |>.mp (by simpa using hm2)
        rw [hbb]
        simp

/-- The two regex passes of `to_snake_case` equal positional underscore
insertion on alphanumeric strings. -/
theorem snakeFusion (l : List Char) (hal : l.all isAlnumA = true) :
    sub2 (sub1 l) = insUS l :=
  (snakeFusionAux l.length).1 l (le_refl _) hal

theorem splitUS_ne_nil : ∀ l : List Char, splitUS l ≠ []
  | [] => by simp [splitUS]
  | c :: rest => by
    unfold splitUS
    split
    · simp
    · split
      · simp
      · simp

theorem splitUS_eq (l : List Char) : splitUS l = sFst l :: sRest l := by
  rcases h : splitUS l with _ | ⟨p, ps⟩
  · exact absurd h (splitUS_ne_nil l)
  · simp [sFst, sRest, h]

theorem sFst_us (r : List Char) : sFst ('_' :: r) = [] := by
  simp [sFst, splitUS]

theorem sRest_us (r : List Char) : sRest ('_' :: r) = splitUS r := by
  simp [sRest, splitUS]

theorem sFst_cons (c : Char) (r : List Char) (h : ¬ c = '_') :
    sFst (c :: r) = c :: sFst r := by
  simp only [sFst, splitUS, if_neg h]
  rw [splitUS_eq r]
  rfl

theorem sRest_cons (c : Char) (r : List Char) (h : ¬ c = '_') :
    sRest (c :: r) = sRest r := by
  simp only [sRest, splitUS, if_neg h]
  rw [splitUS_eq r]
  rfl

theorem lowerA_us : lowerA '_' = '_' := by decide

theorem isAlphaA_lowerA {c : Char} (h : isAlphaA c = true) : isAlphaA (lowerA c) = true := by
  rcases Bool.or_eq_true_iff.mp h with h2 | h2
  · exact isAlphaA_lowerA_of_upper h2
  · rw [lowerA_of_not_upper (lower_not_upper h2)]
    exact h

/-- The case normalization `to_camel_case` performs on the lowered output
of the insertion pass: the three entry modes of a component (first
component untitled, titled after a cased character, titled after an
uncased character). -/
theorem camelAux : ∀ (l : List Char) (p : Char),
    (p :: l).all isAlnumA = true → noDigLow (p :: l) = true →
    (sFst ((goIns p l).map lowerA) ++
        ((sRest ((goIns p l).map lowerA)).map pyTitle).flatten = gnorm p l) ∧
    (pyTitleAux true (sFst ((goIns p l).map lowerA)) ++
        ((sRest ((goIns p l).map lowerA)).map pyTitle).flatten = gnorm p l) ∧
    (isDigitA p = true →
      pyTitleAux false (sFst ((goIns p l).map lowerA)) ++
        ((sRest ((goIns p l).map lowerA)).map pyTitle).flatten = gnorm p l) := by
  intro l
  induction l with
  | nil =>
    intro p _ _
    refine ⟨rfl, rfl, fun _ => rfl⟩
  | cons c rest ih =>
    intro p hal hnd
    simp only [List.all_cons, Bool.and_eq_true] at hal
    have halsub : (c :: rest).all isAlnumA = true := by
      simp [List.all_cons, hal.2.1, hal.2.2]
    have hndsub : noDigLow (c :: rest) = true := by
      rcases rest with _ | ⟨x, xs⟩
      · rfl
      · exact ((Bool.and_eq_true _ _).mp hnd).2
    have hcA : isAlnumA c = true := hal.2.1
    have ihc := ih c halsub hndsub
    by_cases hb : boundaryB p c (rest.head?) = true
    · have hcU : isUpperA c = true := ((Bool.and_eq_true _ _).mp hb).1
      have hfst : sFst ((goIns p (c :: rest)).map lowerA) = [] := by
        rw [goIns_cons, if_pos hb]
        simp only [List.cons_append, List.nil_append, List.map_cons, lowerA_us]
        exact sFst_us _
      have hrst : ((sRest ((goIns p (c :: rest)).map lowerA)).map pyTitle).flatten =
          c :: gnorm c rest := by
        rw [goIns_cons, if_pos hb]
        simp only [List.cons_append, List.nil_append, List.map_cons, lowerA_us]
        rw [sRest_us]
        have e1 : splitUS (lowerA c :: (goIns c rest).map lowerA) =
            (lowerA c :: sFst ((goIns c rest).map lowerA)) ::
              sRest ((goIns c rest).map lowerA) := by
          rw [splitUS_eq (lowerA c :: (goIns c rest).map lowerA),
            sFst_cons _ _ (lowerA_ne_us hcA), sRest_cons _ _ (lowerA_ne_us hcA)]
        rw [e1]
        simp only [List.map_cons, List.flatten_cons]
        have e2 : pyTitle (lowerA c :: sFst ((goIns c rest).map lowerA)) =
            c :: pyTitleAux true (sFst ((goIns c rest).map lowerA)) := by
          simp only [pyTitle, pyTitleAux, if_pos (isAlphaA_lowerA_of_upper hcU)]
          rw [upperA_lowerA hcU]
          simp [isAlphaA_lowerA_of_upper hcU]
        rw [e2, List.cons_append]
        rw [ihc.2.1]
      have hgn : gnorm p (c :: rest) = c :: gnorm c rest := by
        rw [gnorm_cons, if_pos hb]
      refine ⟨?_, ?_, fun _ => ?_⟩
      · rw [hfst, hrst, hgn]
        rfl
      · rw [hfst, hrst, hgn]
        rfl
      · rw [hfst, hrst, hgn]
        rfl
    · have hbf : boundaryB p c (rest.head?) = false := Bool.not_eq_true _ |>.mp hb
      have hfst : sFst ((goIns p (c :: rest)).map lowerA) =
          lowerA c :: sFst ((goIns c rest).map lowerA) := by
        rw [goIns_cons, hbf]
        simp only [Bool.false_eq_true, if_neg, List.cons_append, List.nil_append,
          List.map_cons, reduceIte]
        exact sFst_cons _ _ (lowerA_ne_us hcA)
      have hrst : sRest ((goIns p (c :: rest)).map lowerA) =
          sRest ((goIns c rest).map lowerA) := by
        rw [goIns_cons, hbf]
        simp only [Bool.false_eq_true, if_neg, List.cons_append, List.nil_append,
          List.map_cons, reduceIte]
        exact sRest_cons _ _ (lowerA_ne_us hcA)
      have hgn : gnorm p (c :: rest) = lowerA c :: gnorm c rest := by
        rw [gnorm_cons, hbf]
        simp
      refine ⟨?_, ?_, fun hp => ?_⟩
      · rw [hfst, hrst, hgn, List.cons_append]
        rw [ihc.1]
      · rw [hfst, hrst, hgn]
        rcases alnum_cases hcA with hcU | hcL | hcD
        · have e : pyTitleAux true (lowerA c :: sFst ((goIns c rest).map lowerA)) =
              lowerA c :: pyTitleAux true (sFst ((goIns c rest).map lowerA)) := by
            simp only [pyTitleAux,
              if_pos (isAlphaA_lowerA (c := c) (by simp [isAlphaA, hcU]))]
            simp [lowerA_idem]
          rw [e, List.cons_append, ihc.2.1]
        · have e : pyTitleAux true (lowerA c :: sFst ((goIns c rest).map lowerA)) =
              lowerA c :: pyTitleAux true (sFst ((goIns c rest).map lowerA)) := by
            simp only [pyTitleAux,
              if_pos (isAlphaA_lowerA (c := c) (by simp [isAlphaA, hcL]))]
            simp [lowerA_idem]
          rw [e, List.cons_append, ihc.2.1]
        · have hlc : lowerA c = c := lowerA_of_not_upper (digit_not_upper hcD)
          have e : pyTitleAux true (lowerA c :: sFst ((goIns c rest).map lowerA)) =
              c :: pyTitleAux false (sFst ((goIns c rest).map lowerA)) := by
            rw [hlc]
            simp only [pyTitleAux, digit_not_alpha hcD]
            simp
          rw [e, List.cons_append, ihc.2.2 hcD, hlc]
      · rw [hfst, hrst, hgn]
        rcases alnum_cases hcA with hcU | hcL | hcD
        · exfalso
          have : boundaryB p c (rest.head?) = true := by
            simp [boundaryB, hcU, isLowerDigitA, hp]
          rw [this] at hbf
          exact absurd hbf (by simp)
        · exfalso
          have hpair : (!(isDigitA p && isLowerA c)) = true := by
            rcases rest with _ | ⟨x, xs⟩
            · exact ((Bool.and_eq_true _ _).mp hnd).1
            · exact ((Bool.and_eq_true _ _).mp hnd).1
          rw [hp, hcL] at hpair
          simp at hpair
        · have hlc : lowerA c = c := lowerA_of_not_upper (digit_not_upper hcD)
          have e : pyTitleAux false (lowerA c :: sFst ((goIns c rest).map lowerA)) =
              c :: pyTitleAux false (sFst ((goIns c rest).map lowerA)) := by
            rw [hlc]
            simp only [pyTitleAux, digit_not_alpha hcD]
            simp
          rw [e, List.cons_append, ihc.2.2 hcD, hlc]

theorem gnorm_head_lower (c x : Char) (xs : List Char) (hx : isLowerA x = true) :
    (gnorm c (x :: xs)).head? = some x := by
  rw [gnorm_cons]
  have hb : boundaryB c x (xs.head?) = false := by
    simp [boundaryB, lower_not_upper hx]
  rw [hb]
  simp [lowerA_of_not_upper (lower_not_upper hx)]

/-- Lowering the non-boundary uppercase letters does not change where the
insertion pass puts underscores, nor the lowered output. -/
theorem normFuse : ∀ (l : List Char) (p q : Char),
    l.all isAlnumA = true →
    lowerA q = lowerA p → (isUpperA q = true → isUpperA p = true) →
    (goIns q (gnorm p l)).map lowerA = (goIns p l).map lowerA := by
  intro l
  induction l with
  | nil => intro p q _ _ _; rfl
  | cons c rest ih =>
    intro p q hal hlq hup
    simp only [List.all_cons, Bool.and_eq_true] at hal
    by_cases hb : boundaryB p c (rest.head?) = true
    · have hcU : isUpperA c = true := ((Bool.and_eq_true _ _).mp hb).1
      have hgn : gnorm p (c :: rest) = c :: gnorm c rest := by
        rw [gnorm_cons, if_pos hb]
      have hb2 : boundaryB q c ((gnorm c rest).head?) = true := by
        simp only [boundaryB, hcU, Bool.true_and]
        rcases Bool.or_eq_true_iff.mp (((Bool.and_eq_true _ _).mp hb).2) with hpd | hnx
        · have hqnu : isUpperA q = false := by
            rcases Bool.eq_false_or_eq_true (isUpperA q) with h | h
            · rw [lowerdigit_not_upper hpd] at hup
              exact absurd (hup h) (by simp)
            · exact h
          have hq : q = p := by
            rw [← lowerA_of_not_upper hqnu, hlq, lowerA_of_lowerdigit hpd]
          rw [hq, hpd]
          simp
        · rcases rest with _ | ⟨x, xs⟩
          · simp at hnx
          · simp only [List.head?_cons, Option.some.injEq] at hnx
            rw [gnorm_head_lower c x xs hnx]
            simp [hnx]
      rw [hgn, goIns_cons, if_pos hb2, goIns_cons, if_pos hb]
      simp only [List.cons_append, List.nil_append, List.map_cons]
      rw [ih c c hal.2 rfl (fun h => h)]
    · have hbf : boundaryB p c (rest.head?) = false := Bool.not_eq_true _ |>.mp hb
      have hgn : gnorm p (c :: rest) = lowerA c :: gnorm c rest := by
        rw [gnorm_cons, hbf]
        simp
      have hb2 : boundaryB q (lowerA c) ((gnorm c rest).head?) = false := by
        simp [boundaryB, isUpperA_lowerA]
      rw [hgn, goIns_cons, hb2, goIns_cons, hbf]
      simp only [Bool.false_eq_true, if_neg, List.cons_append, List.nil_append,
        List.map_cons, reduceIte]
      rw [lowerA_idem]
      rw [ih c (lowerA c) hal.2 (lowerA_idem c) (fun h => absurd (isUpperA_lowerA c ▸ h)
        (by simp [isUpperA_lowerA]))]

theorem gnorm_alnum : ∀ (l : List Char) (p : Char), l.all isAlnumA = true →
    (gnorm p l).all isAlnumA = true := by
  intro l
  induction l with
  | nil => intro p _; rfl
  | cons c rest ih =>
    intro p hal
    simp only [List.all_cons, Bool.and_eq_true] at hal
    rw [gnorm_cons]
    simp only [List.all_cons, Bool.and_eq_true]
    constructor
    · by_cases hb : boundaryB p c (rest.head?) = true
      · rw [if_pos hb]
        exact hal.1
      · rw [if_neg hb]
        exact isAlnumA_lowerA hal.1
    · exact ih c hal.2

theorem normStr_alnum (l : List Char) (hal : l.all isAlnumA = true) :
    (normStr l).all isAlnumA = true := by
  rcases l with _ | ⟨c0, rest⟩
  · rfl
  · simp only [List.all_cons, Bool.and_eq_true] at hal
    simp only [normStr, List.all_cons, Bool.and_eq_true]
    exact ⟨isAlnumA_lowerA hal.1, gnorm_alnum rest c0 hal.2⟩

/-- `to_snake_case` on an alphanumeric string, via the positional pass. -/
theorem to_snake_eval (s : String) (hal : s.data.all isAlnumA = true) :
    to_snake_case s = String.mk ((insUS s.data).map lowerA) := by
  simp only [to_snake_case, pyLower]
  rw [snakeFusion s.data hal]

/-- `to_camel_case ∘ to_snake_case` normalizes the case of an
alphanumeric string without digit-lowercase pairs. -/
theorem camelSnake (l : List Char) (hal : l.all isAlnumA = true)
    (hnd : noDigLow l = true) :
    to_camel_case (to_snake_case (String.mk l)) = String.mk (normStr l) := by
  rw [to_snake_eval (String.mk l) hal]
  rcases l with _ | ⟨c0, rest⟩
  · rfl
  · simp only [List.all_cons, Bool.and_eq_true] at hal
    simp only [insUS, List.map_cons, to_camel_case]
    have e1 : splitUS (lowerA c0 :: (goIns c0 rest).map lowerA) =
        (lowerA c0 :: sFst ((goIns c0 rest).map lowerA)) ::
          sRest ((goIns c0 rest).map lowerA) := by
      rw [splitUS_eq (lowerA c0 :: (goIns c0 rest).map lowerA),
        sFst_cons _ _ (lowerA_ne_us hal.1), sRest_cons _ _ (lowerA_ne_us hal.1)]
    rw [e1]
    have hS1 := (camelAux rest c0 (by simp [List.all_cons, hal.1, hal.2]) hnd).1
    simp only [normStr]
    apply congrArg String.mk
    rw [List.cons_append, hS1]

/-- Re-snaking the normalized string gives the original snake form. -/
theorem snakeNorm (l : List Char) (hal : l.all isAlnumA = true) :
    to_snake_case (String.mk (normStr l)) = to_snake_case (String.mk l) := by
  rw [to_snake_eval (String.mk (normStr l)) (normStr_alnum l hal),
    to_snake_eval (String.mk l) hal]
  rcases l with _ | ⟨c0, rest⟩
  · rfl
  · simp only [List.all_cons, Bool.and_eq_true] at hal
    apply congrArg String.mk
    simp only [normStr, insUS, List.map_cons]
    rw [lowerA_idem]
    rw [normFuse rest c0 (lowerA c0) hal.2 (lowerA_idem c0)
      (fun h => absurd h (by simp [isUpperA_lowerA]))]

/-- C7 amended: for every camelCase string (ASCII letters and digits) in
which no digit is immediately followed by a lowercase letter, the
snake-cased form is stable under one camel/snake round-trip. -/
theorem snake_camel_snake_stable (s : String) (h1 : isCamelCase s = true)
    (h2 : noDigLow s.data = true) :
    to_snake_case (to_camel_case (to_snake_case s)) = to_snake_case s := by
  have hs : String.mk s.data = s := rfl
  rw [← hs]
  rw [camelSnake s.data h1 h2, snakeNorm s.data h1]

/-- C7 counterexample: `"xA2b"` is camelCase, yet its snake-cased form is
not stable under the round-trip — `str.title()` uppercases the letter
after the digit, and re-snaking then inserts a fresh underscore. -/
theorem snake_camel_snake_counterexample :
    isCamelCase "xA2b" = true ∧
    to_snake_case "xA2b" = "x_a2b" ∧
    to_camel_case "x_a2b" = "xA2B" ∧
    to_snake_case "xA2B" = "x_a2_b" ∧
    to_snake_case (to_camel_case (to_snake_case "xA2b")) ≠ to_snake_case "xA2b" := by
  have e1 : to_snake_case "xA2b" = "x_a2b" := by
    rw [to_snake_eval _ (by decide)]
    decide
  have e2 : to_camel_case "x_a2b" = "xA2B" := by decide
  have e3 : to_snake_case "xA2B" = "x_a2_b" := by
    rw [to_snake_eval _ (by decide)]
    decide
  refine ⟨by decide, e1, e2, e3, ?_⟩
  rw [e1, e2, e3]
  decide

theorem snake_camel_snake_stable_witness :
    isCamelCase "HTTPResponse" = true ∧
    to_snake_case (to_camel_case (to_snake_case "HTTPResponse")) =
      to_snake_case "HTTPResponse" :=
  ⟨by decide, snake_camel_snake_stable "HTTPResponse" (by decide) (by decide)⟩
